import Mathlib

/-!
# The provider-key cache of `crypto/evp/keymgmt_lib.c`

A shallow embedding of `evp_keymgmt_export_to_provider`,
`evp_keymgmt_clear_pkey_cache`, `evp_keymgmt_cache_pkey`,
`evp_keymgmt_fromdata`, the callback `try_import` and the dispatch forwarders
for import, export, free, get-params, gettable-params and domain-parameter
validation.

Conventions of the embedding.

* A C pointer is its address, a natural number; `0` is `NULL`.  `void *` and
  `EVP_KEYMGMT *` share one address space, as they do in C.
* Memory holding key manager descriptors is a `Heap`: it tells which addresses
  hold an `EVP_KEYMGMT` and what its function table contains.  Descriptors are
  not modified by this file; backend operations are functions of their
  arguments.
* A function returns `none` when the C code has no defined behaviour (a call
  through a `NULL` function pointer, a dereference of an address that holds no
  descriptor, a store outside the slot array).
* Calls that leave this file (backend operations, reference counting) are
  recorded as a list of `Event`s, in call order.
* A backend export operation is a tree (`Export`) of the calls it makes to the
  callback it is given, so that every way of using the callback (not at all,
  once, several times, ignoring or honouring its return value) is covered.
-/

namespace Keymgmt

/-- A C pointer, as an address; `0` is `NULL`. -/
abbrev Ptr := Nat

/-- One entry of an `OSSL_PARAM` array: its key and the integer it carries. -/
abbrev OSSL_PARAM := String × Int

/-- An `OSSL_PARAM` array; the end marker is the end of the list. -/
abbrev Params := List OSSL_PARAM

/-- Modelled from the spec: the key names of `openssl/core_names.h`, which is not
among the sources. -/
def OSSL_PKEY_PARAM_BITS : String := "bits"

/-- Modelled from the spec: see `OSSL_PKEY_PARAM_BITS`. -/
def OSSL_PKEY_PARAM_SECURITY_BITS : String := "security-bits"

/-- Modelled from the spec: see `OSSL_PKEY_PARAM_BITS`. -/
def OSSL_PKEY_PARAM_MAX_SIZE : String := "max-size"

/-- Calls that leave `keymgmt_lib.c`, each with the descriptor it goes through. -/
inductive Event where
  | up_ref (keymgmt : Ptr)
  | free_ref (keymgmt : Ptr)
  | freedomparams (keymgmt provdata : Ptr)
  | freekey (keymgmt provdata : Ptr)
  | exportdomparams (keymgmt provdata : Ptr)
  | exportkey (keymgmt provdata : Ptr)
  | importdomparams (keymgmt : Ptr) (params : Params)
  | importkey (keymgmt : Ptr) (params : Params)
  | get_domparam_params (keymgmt provdata : Ptr)
  | get_key_params (keymgmt provdata : Ptr)
  | gettable_domparam_params (keymgmt : Ptr)
  | gettable_key_params (keymgmt : Ptr)
  | validatedomparams (keymgmt provdata : Ptr)
  | export_to (keymgmt : Ptr) (want_domainparams : Int)
  deriving DecidableEq, Repr

/-- What a backend export operation does with the `OSSL_CALLBACK` it is given:
it returns an `int`, or hands one parameter list to the callback and goes on
according to the callback's return value. -/
inductive Export where
  | ret (r : Int)
  | call (params : Params) (k : Int → Export)

/-- The result of a call: `none` is undefined behaviour, otherwise the value
together with the external calls made, in order. -/
abbrev Res (α : Type) := Option (α × List Event)

/-- Run a backend export against a callback `cb` with callback argument `arg`
(the `void *cbarg` of the C signature, here the object it points to). -/
def Export.run {σ : Type} (cb : Params → σ → Res (Int × σ)) : Export → σ → Res (Int × σ)
  | .ret r, arg => some ((r, arg), [])
  | .call params k, arg =>
    match cb params arg with
    | none => none
    | some ((r, arg1), ev1) =>
      match Export.run cb (k r) arg1 with
      | none => none
      | some (out, ev2) => some (out, ev1 ++ ev2)

/-- Modelled from the spec: `struct evp_keymgmt_st` of `evp_local.h`, which is not
among the sources.  Every function pointer is `none` when `NULL`.  `provctx` is
`ossl_provider_ctx(EVP_KEYMGMT_provider(keymgmt))`.  A get-params operation
returns its `int` and, per key, the integer it stored (if any); a gettable
operation returns its array, `none` when that is `NULL`. -/
structure EVP_KEYMGMT where
  provctx : Ptr
  importdomparams : Option (Ptr → Params → Ptr)
  freedomparams : Option (Ptr → Unit)
  exportdomparams : Option (Ptr → Export)
  get_domparam_params : Option (Ptr → Params → Int × (String → Option Int))
  gettable_domparam_params : Option (Unit → Option Params)
  validatedomparams : Option (Ptr → Int)
  importkey : Option (Ptr → Params → Ptr)
  freekey : Option (Ptr → Unit)
  exportkey : Option (Ptr → Export)
  get_key_params : Option (Ptr → Params → Int × (String → Option Int))
  gettable_key_params : Option (Unit → Option Params)

/-- Which addresses hold a key manager descriptor. -/
abbrev Heap := Ptr → Option EVP_KEYMGMT

/-- Read `*keymgmt`; undefined for `NULL` and for an address without descriptor. -/
def deref (H : Heap) (keymgmt : Ptr) : Option EVP_KEYMGMT :=
  if keymgmt = 0 then none else H keymgmt

/-- Modelled from the spec: `EVP_KEYMGMT_up_ref` of `keymgmt_meth.c`, which is not
among the sources: it takes one reference on a descriptor. -/
def EVP_KEYMGMT_up_ref (H : Heap) (keymgmt : Ptr) : Res Unit :=
  match deref H keymgmt with
  | none => none
  | some _ => some ((), [Event.up_ref keymgmt])

/-- Modelled from the spec: `EVP_KEYMGMT_free` of `keymgmt_meth.c`, which is not
among the sources: it releases one reference. -/
def EVP_KEYMGMT_free (keymgmt : Ptr) : List Event := [Event.free_ref keymgmt]

/-- Modelled from the spec: `ossl_assert` of `internal/cryptlib.h`, which is not
among the sources.  In a release build it is its argument; a debug build
aborts the process when the argument is false. -/
def ossl_assert (c : Bool) : Bool := c

/-! ## The dispatch forwarders (source lines 224-371) -/

/-- Source lines 226-232. -/
def evp_keymgmt_importdomparams (H : Heap) (keymgmt : Ptr) (params : Params) : Res Ptr :=
  match deref H keymgmt with
  | none => none
  | some m =>
    match m.importdomparams with
    | none => none
    | some f => some (f m.provctx params, [Event.importdomparams keymgmt params])

/-- Source lines 242-246. -/
def evp_keymgmt_freedomparams (H : Heap) (keymgmt provdomparams : Ptr) : Res Unit :=
  match deref H keymgmt with
  | none => none
  | some m =>
    match m.freedomparams with
    | none => none
    | some f => some (f provdomparams, [Event.freedomparams keymgmt provdomparams])

/-- Source lines 248-253. -/
def evp_keymgmt_exportdomparams {σ : Type} (H : Heap) (keymgmt provdomparams : Ptr)
    (param_cb : Params → σ → Res (Int × σ)) (cbarg : σ) : Res (Int × σ) :=
  match deref H keymgmt with
  | none => none
  | some m =>
    match m.exportdomparams with
    | none => none
    | some f =>
      match (f provdomparams).run param_cb cbarg with
      | none => none
      | some (out, ev) => some (out, Event.exportdomparams keymgmt provdomparams :: ev)

/-- Apply what a get-params operation stored to the caller's array. -/
def store_params (params : Params) (written : String → Option Int) : Params :=
  params.map (fun p => (p.1, (written p.1).getD p.2))

/-- Source lines 269-275. -/
def evp_keymgmt_get_domparam_params (H : Heap) (keymgmt provdomparams : Ptr)
    (params : Params) : Res (Int × Params) :=
  match deref H keymgmt with
  | none => none
  | some m =>
    match m.get_domparam_params with
    | none => some ((1, params), [])
    | some f =>
      some (((f provdomparams params).1, store_params params (f provdomparams params).2),
            [Event.get_domparam_params keymgmt provdomparams])

/-- Source lines 277-283; `none` inside the result is the `NULL` array. -/
def evp_keymgmt_gettable_domparam_params (H : Heap) (keymgmt : Ptr) : Res (Option Params) :=
  match deref H keymgmt with
  | none => none
  | some m =>
    match m.gettable_domparam_params with
    | none => some (none, [])
    | some f => some (f (), [Event.gettable_domparam_params keymgmt])

/-- Source lines 286-292. -/
def evp_keymgmt_importkey (H : Heap) (keymgmt : Ptr) (params : Params) : Res Ptr :=
  match deref H keymgmt with
  | none => none
  | some m =>
    match m.importkey with
    | none => none
    | some f => some (f m.provctx params, [Event.importkey keymgmt params])

/-- Source lines 310-313. -/
def evp_keymgmt_freekey (H : Heap) (keymgmt provkey : Ptr) : Res Unit :=
  match deref H keymgmt with
  | none => none
  | some m =>
    match m.freekey with
    | none => none
    | some f => some (f provkey, [Event.freekey keymgmt provkey])

/-- Source lines 315-319. -/
def evp_keymgmt_exportkey {σ : Type} (H : Heap) (keymgmt provkey : Ptr)
    (param_cb : Params → σ → Res (Int × σ)) (cbarg : σ) : Res (Int × σ) :=
  match deref H keymgmt with
  | none => none
  | some m =>
    match m.exportkey with
    | none => none
    | some f =>
      match (f provkey).run param_cb cbarg with
      | none => none
      | some (out, ev) => some (out, Event.exportkey keymgmt provkey :: ev)

/-- Source lines 335-341. -/
def evp_keymgmt_get_key_params (H : Heap) (keymgmt provkey : Ptr)
    (params : Params) : Res (Int × Params) :=
  match deref H keymgmt with
  | none => none
  | some m =>
    match m.get_key_params with
    | none => some ((1, params), [])
    | some f =>
      some (((f provkey params).1, store_params params (f provkey params).2),
            [Event.get_key_params keymgmt provkey])

/-- Source lines 343-348; `none` inside the result is the `NULL` array. -/
def evp_keymgmt_gettable_key_params (H : Heap) (keymgmt : Ptr) : Res (Option Params) :=
  match deref H keymgmt with
  | none => none
  | some m =>
    match m.gettable_key_params with
    | none => some (none, [])
    | some f => some (f (), [Event.gettable_key_params keymgmt])

/-- Source lines 350-356. -/
def evp_keymgmt_validate_domparams (H : Heap) (keymgmt provkey : Ptr) : Res Int :=
  match deref H keymgmt with
  | none => none
  | some m =>
    match m.validatedomparams with
    | none => some (1, [])
    | some f => some (f provkey, [Event.validatedomparams keymgmt provkey])

/-! ## The key and its cache -/

/-- Modelled from the spec: one element of the array `pk->pkeys` declared in
`crypto/evp.h`, which is not among the sources.  The slot is empty when
`keymgmt` is `NULL`; `domainparams` is a C `int`. -/
structure Slot where
  keymgmt : Ptr
  provdata : Ptr
  domainparams : Int
  deriving DecidableEq, Repr

/-- Modelled from the spec: the member `pk->cache` (see `Slot`). -/
structure PkeyCache where
  size : Int
  bits : Int
  security_bits : Int
  deriving DecidableEq, Repr

/-- Modelled from the spec: the two members of `pk->ameth` that the file uses
(`crypto/asn1.h` is not among the sources), already applied to the key they
belong to.  `dirty_cnt` is `none` when the function pointer is `NULL`, otherwise
the value the accessor returns for the legacy object in its present state;
a mutation of the legacy key is a change of that value. -/
structure EVP_PKEY_ASN1_METHOD where
  dirty_cnt : Option Nat
  export_to : Option (Ptr → Int → Ptr)

/-- Modelled from the spec: the members of `struct evp_pkey_st` that the file
uses (see `Slot`).  `pkey_ptr` is `pk->pkey.ptr`; the length of `pkeys` is
`OSSL_NELEM(pk->pkeys)`. -/
structure EVP_PKEY where
  pkey_ptr : Ptr
  ameth : EVP_PKEY_ASN1_METHOD
  dirty_cnt_copy : Nat
  pkeys : List Slot
  cache : PkeyCache

/-- The two functions whose address `import_data.importfn` can hold. -/
inductive ImportFn where
  | evp_keymgmt_importdomparams
  | evp_keymgmt_importkey
  deriving DecidableEq, Repr

/-- The two functions whose address the local `exportfn` can hold. -/
inductive ExportFn where
  | evp_keymgmt_exportdomparams
  | evp_keymgmt_exportkey
  deriving DecidableEq, Repr

/-- Source lines 19-25.  `importfn` is `none` when `NULL`.  Its declared first
parameter is a `const EVP_KEYMGMT *`. -/
structure import_data_st where
  provctx : Ptr
  importfn : Option ImportFn
  provdata : Ptr
  deriving DecidableEq, Repr

/-- Call through an `importfn` pointer with first argument `arg`. -/
def ImportFn.call (H : Heap) (fn : ImportFn) (arg : Ptr) (params : Params) : Res Ptr :=
  match fn with
  | .evp_keymgmt_importdomparams => Keymgmt.evp_keymgmt_importdomparams H arg params
  | .evp_keymgmt_importkey => Keymgmt.evp_keymgmt_importkey H arg params

/-- Call through an `exportfn` pointer. -/
def ExportFn.call {σ : Type} (H : Heap) (fn : ExportFn) (keymgmt provdata : Ptr)
    (cb : Params → σ → Res (Int × σ)) (cbarg : σ) : Res (Int × σ) :=
  match fn with
  | .evp_keymgmt_exportdomparams => Keymgmt.evp_keymgmt_exportdomparams H keymgmt provdata cb cbarg
  | .evp_keymgmt_exportkey => Keymgmt.evp_keymgmt_exportkey H keymgmt provdata cb cbarg

/-- Source lines 27-33: `data->provdata = data->importfn(data->provctx, params)`,
then `return data->provdata != NULL`.  The first argument handed to the import
forwarder is `data->provctx`. -/
def try_import (H : Heap) (params : Params) (data : import_data_st) :
    Res (Int × import_data_st) :=
  match data.importfn with
  | none => none
  | some fn =>
    match fn.call H data.provctx params with
    | none => none
    | some (p, ev) => some ((if p ≠ 0 then 1 else 0, { data with provdata := p }), ev)

/-- The loop of source lines 151-164, over the slots from the current index on. -/
def clear_loop (H : Heap) : List Slot → Res (List Slot)
  | [] => some ([], [])
  | s :: rest =>
    if s.keymgmt = 0 then some (s :: rest, [])
    else
      match (if s.domainparams ≠ 0 then evp_keymgmt_freedomparams H s.keymgmt s.provdata
             else evp_keymgmt_freekey H s.keymgmt s.provdata) with
      | none => none
      | some (_, ev1) =>
        match clear_loop H rest with
        | none => none
        | some (rest1, ev2) =>
          some ({ s with keymgmt := 0, provdata := 0 } :: rest1,
                ev1 ++ EVP_KEYMGMT_free s.keymgmt ++ ev2)

/-- Source lines 146-170.  A `NULL` key is `none`. -/
def evp_keymgmt_clear_pkey_cache (H : Heap) (pk : Option EVP_PKEY) : Res (Option EVP_PKEY) :=
  match pk with
  | none => some (none, [])
  | some pk =>
    match clear_loop H pk.pkeys with
    | none => none
    | some (slots, ev) =>
      some (some { pk with pkeys := slots, cache := { size := 0, bits := 0, security_bits := 0 } },
            ev)

/-- The value of the `int` that entry `n` of a parameter array points to. -/
def param_int (params : Params) (n : Nat) : Int := (params.map Prod.snd).getD n 0

/-- Source lines 172-209.  A store at an index outside the array is undefined. -/
def evp_keymgmt_cache_pkey (H : Heap) (pk : EVP_PKEY) (index : Nat) (keymgmt provdata : Ptr)
    (domainparams : Int) : Res EVP_PKEY :=
  if provdata ≠ 0 then
    match EVP_KEYMGMT_up_ref H keymgmt with
    | none => none
    | some (_, ev0) =>
      if index < pk.pkeys.length then
        let pk1 := { pk with pkeys := pk.pkeys.set index ⟨keymgmt, provdata, domainparams⟩ }
        if index = 0 then
          let params : Params :=
            [(OSSL_PKEY_PARAM_BITS, 0), (OSSL_PKEY_PARAM_SECURITY_BITS, 0),
             (OSSL_PKEY_PARAM_MAX_SIZE, 0)]
          match (if domainparams ≠ 0 then evp_keymgmt_get_domparam_params H keymgmt provdata params
                 else evp_keymgmt_get_key_params H keymgmt provdata params) with
          | none => none
          | some ((ok, out), ev1) =>
            if ok ≠ 0 then
              some ({ pk1 with cache := { size := param_int out 2, bits := param_int out 0,
                                          security_bits := param_int out 1 } }, ev0 ++ ev1)
            else some (pk1, ev0 ++ ev1)
        else some (pk1, ev0)
      else none
  else some (pk, [])

/-- Outcome of the scan of source lines 61-67: a slot matched and its
representation is returned, or the scan stopped at index `i`. -/
inductive Lookup where
  | hit (provdata : Ptr)
  | miss (i : Nat)
  deriving DecidableEq, Repr

/-- The loop of source lines 61-67, over the slots from index `i` on. -/
def lookup_loop (keymgmt : Ptr) (want_domainparams : Int) : List Slot → Nat → Lookup
  | [], i => .miss i
  | s :: rest, i =>
    if s.keymgmt = 0 then .miss i
    else if keymgmt = s.keymgmt ∧ want_domainparams = s.domainparams then .hit s.provdata
    else lookup_loop keymgmt want_domainparams rest (i + 1)

/-- The loop of source lines 106-130 over the slots `j, ..., i - 1`; the value is
the local `provdata` when the loop is left. -/
def bridge_loop (H : Heap) (keymgmt : Ptr) (want_domainparams : Int) :
    List Slot → import_data_st → Res Ptr
  | [], _ => some (0, [])
  | s :: rest, import_data =>
    if s.keymgmt = 0 then some (0, [])
    else
      let exportfn : Option ExportFn :=
        some (if want_domainparams ≠ 0 then ExportFn.evp_keymgmt_exportdomparams
              else ExportFn.evp_keymgmt_exportkey)
      match exportfn with
      | none => bridge_loop H keymgmt want_domainparams rest import_data
      | some fn =>
        match deref H keymgmt with
        | none => none
        | some m =>
          match fn.call H s.keymgmt s.provdata (try_import H)
                  { import_data with provctx := m.provctx } with
          | none => none
          | some ((r, data), ev1) =>
            if r ≠ 0 ∧ data.provdata ≠ 0 then some (data.provdata, ev1)
            else
              match bridge_loop H keymgmt want_domainparams rest data with
              | none => none
              | some (p, ev2) => some (p, ev1 ++ ev2)

/-- Source lines 45-55.  The inner `none` is the `return NULL` of line 51;
otherwise the key as the block leaves it. -/
def invalidate_stale (H : Heap) (pk : EVP_PKEY) : Res (Option EVP_PKEY) :=
  if pk.pkey_ptr ≠ 0 then
    match pk.ameth.dirty_cnt with
    | none => some (none, [])
    | some cnt =>
      if cnt ≠ pk.dirty_cnt_copy then
        match evp_keymgmt_clear_pkey_cache H (some pk) with
        | some (some pk1, ev) => some (some pk1, ev)
        | _ => none
      else some (some pk, [])
  else some (some pk, [])

/-- Source lines 69-131, entered after the scan stopped at index `i`.  The inner
`none` is the `return NULL` of lines 74 and 104; otherwise the local `provdata`
and the key as the block leaves it. -/
def produce (H : Heap) (pk : EVP_PKEY) (keymgmt : Ptr) (want_domainparams : Int) (i : Nat) :
    Res (Option (Ptr × EVP_PKEY)) :=
  if pk.pkey_ptr ≠ 0 then
    match pk.ameth.export_to with
    | none => some (none, [])
    | some export_to =>
      let provdata := export_to keymgmt want_domainparams
      if provdata ≠ 0 then
        match pk.ameth.dirty_cnt with
        | none => none
        | some cnt =>
          some (some (provdata, { pk with dirty_cnt_copy := cnt }),
                [Event.export_to keymgmt want_domainparams])
      else some (some (provdata, pk), [Event.export_to keymgmt want_domainparams])
  else
    let import_data : import_data_st :=
      { provctx := 0,
        importfn := some (if want_domainparams ≠ 0 then ImportFn.evp_keymgmt_importdomparams
                          else ImportFn.evp_keymgmt_importkey),
        provdata := 0 }
    if import_data.importfn = none then some (none, [])
    else
      match bridge_loop H keymgmt want_domainparams (pk.pkeys.take i) import_data with
      | none => none
      | some (provdata, ev) => some (some (provdata, pk), ev)

/-- Source lines 35-144.  The result is the returned pointer and the key as the
call leaves it. -/
def evp_keymgmt_export_to_provider (H : Heap) (pk : EVP_PKEY) (keymgmt : Ptr)
    (want_domainparams : Int) : Res (Ptr × EVP_PKEY) :=
  match invalidate_stale H pk with
  | none => none
  | some (none, ev0) => some ((0, pk), ev0)
  | some (some pk1, ev0) =>
    -- lines 61-67
    match lookup_loop keymgmt want_domainparams pk1.pkeys 0 with
    | .hit provdata => some ((provdata, pk1), ev0)
    | .miss i =>
      match produce H pk1 keymgmt want_domainparams i with
      | none => none
      | some (none, ev1) => some ((0, pk1), ev0 ++ ev1)
      | some (some (provdata, pk2), ev1) =>
        -- lines 138-143
        if !ossl_assert (decide (i < pk2.pkeys.length)) then some ((0, pk2), ev0 ++ ev1)
        else
          match evp_keymgmt_cache_pkey H pk2 i keymgmt provdata want_domainparams with
          | none => none
          | some (pk3, ev2) => some ((provdata, pk3), ev0 ++ ev1 ++ ev2)

/-- Source lines 211-222. -/
def evp_keymgmt_fromdata (H : Heap) (target : EVP_PKEY) (keymgmt : Ptr) (params : Params)
    (domainparams : Int) : Res (Ptr × EVP_PKEY) :=
  match (if domainparams ≠ 0 then evp_keymgmt_importdomparams H keymgmt params
         else evp_keymgmt_importkey H keymgmt params) with
  | none => none
  | some (provdata, ev0) =>
    match evp_keymgmt_clear_pkey_cache H (some target) with
    | some (some target1, ev1) =>
      match evp_keymgmt_cache_pkey H target1 0 keymgmt provdata domainparams with
      | none => none
      | some (target2, ev2) => some ((provdata, target2), ev0 ++ ev1 ++ ev2)
    | _ => none

/-! ## Notions used to state the properties -/

/-- The live slots of an array: those whose manager is not `NULL`. -/
def live (l : List Slot) : List Slot := l.filter (fun s => decide (s.keymgmt ≠ 0))

/-- No live slot follows an empty one. -/
def Contiguous : List Slot → Prop
  | [] => True
  | s :: rest => (s.keymgmt = 0 → live rest = []) ∧ Contiguous rest

/-- A slot as `evp_keymgmt_clear_pkey_cache` leaves it. -/
def purge (s : Slot) : Slot :=
  if s.keymgmt = 0 then s else { s with keymgmt := 0, provdata := 0 }

/-- The free call and the reference release owed to each live slot, in slot order. -/
def free_calls : List Slot → List Event
  | [] => []
  | s :: rest =>
    if s.keymgmt = 0 then free_calls rest
    else
      (if s.domainparams ≠ 0 then Event.freedomparams s.keymgmt s.provdata
       else Event.freekey s.keymgmt s.provdata) :: Event.free_ref s.keymgmt :: free_calls rest

/-- The manager of a slot is a descriptor that has the free operation the slot's flag selects. -/
def Freeable (H : Heap) (s : Slot) : Prop :=
  ∃ m, deref H s.keymgmt = some m ∧
    (if s.domainparams ≠ 0 then m.freedomparams.isSome = true else m.freekey.isSome = true)

/-- The staleness test of source line 53 fires: a legacy representation is
present, its counter is exposed and differs from `dirty_cnt_copy`. -/
def stale (pk : EVP_PKEY) : Prop :=
  pk.pkey_ptr ≠ 0 ∧ ∃ cnt, pk.ameth.dirty_cnt = some cnt ∧ cnt ≠ pk.dirty_cnt_copy

/-- What the legacy export of source line 77 yields for a request, `NULL` when the
legacy backend has no export function (line 73). -/
def legacy_export (pk : EVP_PKEY) (M : Ptr) (f : Int) : Ptr :=
  match pk.ameth.export_to with
  | none => 0
  | some g => g M f

/-- The array that `evp_keymgmt_cache_pkey` hands to the get-params operation
(source lines 194-198). -/
def summary_request : Params :=
  [(OSSL_PKEY_PARAM_BITS, 0), (OSSL_PKEY_PARAM_SECURITY_BITS, 0), (OSSL_PKEY_PARAM_MAX_SIZE, 0)]

/-- What the get-params operation of descriptor `m` (the domain-parameter one
when the flag is set, the key one otherwise) reports for a representation: its
return value and the size, bits and security bits it stored, each 0 when it
stored none.  A descriptor without the operation reports success and stores
nothing. -/
def reported (m : EVP_KEYMGMT) (provdata : Ptr) (domainparams : Int) : Int × PkeyCache :=
  match (if domainparams ≠ 0 then m.get_domparam_params else m.get_key_params) with
  | none => (1, { size := 0, bits := 0, security_bits := 0 })
  | some g =>
    ((g provdata summary_request).1,
     { size := ((g provdata summary_request).2 OSSL_PKEY_PARAM_MAX_SIZE).getD 0,
       bits := ((g provdata summary_request).2 OSSL_PKEY_PARAM_BITS).getD 0,
       security_bits := ((g provdata summary_request).2 OSSL_PKEY_PARAM_SECURITY_BITS).getD 0 })

/-- The import forwarder that the bridge selects for a flag (source lines 94-97). -/
def importfn_for (f : Int) : ImportFn :=
  if f ≠ 0 then ImportFn.evp_keymgmt_importdomparams else ImportFn.evp_keymgmt_importkey

/-- The states of a key that calls of `evp_keymgmt_export_to_provider`,
`evp_keymgmt_fromdata` and `evp_keymgmt_clear_pkey_cache` reach from an empty
cache, with the external calls made on the way.  Between calls the legacy
representation and its method table may be changed from outside (`legacy`). -/
inductive Reachable (H : Heap) : EVP_PKEY → List Event → Prop where
  | init (pk : EVP_PKEY) (h : ∀ s ∈ pk.pkeys, s.keymgmt = 0 ∧ s.provdata = 0) :
      Reachable H pk []
  | export_to_provider {pk : EVP_PKEY} {log : List Event} (M : Ptr) (f : Int) (r : Ptr)
      (pk1 : EVP_PKEY) (ev : List Event) (h : Reachable H pk log)
      (hcall : evp_keymgmt_export_to_provider H pk M f = some ((r, pk1), ev)) :
      Reachable H pk1 (log ++ ev)
  | fromdata {pk : EVP_PKEY} {log : List Event} (M : Ptr) (params : Params) (f : Int) (r : Ptr)
      (pk1 : EVP_PKEY) (ev : List Event) (h : Reachable H pk log)
      (hcall : evp_keymgmt_fromdata H pk M params f = some ((r, pk1), ev)) :
      Reachable H pk1 (log ++ ev)
  | clear {pk : EVP_PKEY} {log : List Event} (pk1 : EVP_PKEY) (ev : List Event)
      (h : Reachable H pk log)
      (hcall : evp_keymgmt_clear_pkey_cache H (some pk) = some (some pk1, ev)) :
      Reachable H pk1 (log ++ ev)
  | legacy {pk : EVP_PKEY} {log : List Event} (p : Ptr) (a : EVP_PKEY_ASN1_METHOD)
      (h : Reachable H pk log) :
      Reachable H { pk with pkey_ptr := p, ameth := a } log

/-- The number of live slots that hold manager `m` with flag value `f`. -/
def slots_for (l : List Slot) (m : Ptr) (f : Int) : Nat :=
  (live l).countP (fun s => decide (s.keymgmt = m ∧ s.domainparams = f))

/-- The number of live slots that hold manager `m` and are (`b = true`) or are
not (`b = false`) domain-parameter slots. -/
def slots_of_kind (l : List Slot) (m : Ptr) (b : Bool) : Nat :=
  (live l).countP (fun s => decide (s.keymgmt = m ∧ decide (s.domainparams ≠ 0) = b))

/-- The invariant behind slot uniqueness: the live slots are a run from index 0
and no two of them hold the same manager with the same flag value. -/
def SlotsInv (l : List Slot) : Prop := Contiguous l ∧ ∀ m f, slots_for l m f ≤ 1

/-- The request (M, f) is not answered from the cache: the staleness test fires
(the cache is purged before the scan) or the scan of the slots misses. -/
def cache_miss (pk : EVP_PKEY) (M : Ptr) (f : Int) : Prop :=
  stale pk ∨ ∃ i, lookup_loop M f pk.pkeys 0 = Lookup.miss i

/-- The import operation of a descriptor that a flag selects. -/
def import_op (m : EVP_KEYMGMT) (f : Int) : Option (Ptr → Params → Ptr) :=
  if f ≠ 0 then m.importdomparams else m.importkey

/-- The import call that `evp_keymgmt_fromdata` makes for a flag. -/
def import_event (M : Ptr) (params : Params) (f : Int) : Event :=
  if f ≠ 0 then Event.importdomparams M params else Event.importkey M params

/-- Every slot holds a non-null representation exactly when it holds a non-null
manager. -/
def Paired (l : List Slot) : Prop := ∀ s ∈ l, (s.provdata ≠ 0 ↔ s.keymgmt ≠ 0)

/-- The number of live slots that name manager `m`. -/
def held (l : List Slot) (m : Ptr) : Nat :=
  (live l).countP (fun s => decide (s.keymgmt = m))

/-- Whether an event takes or releases a reference on a descriptor. -/
def is_ref_event : Event → Bool
  | Event.up_ref _ => true
  | Event.free_ref _ => true
  | _ => false

/-- The states of a key that calls of `evp_keymgmt_export_to_provider`,
`evp_keymgmt_fromdata` and `evp_keymgmt_clear_pkey_cache` reach from an empty
cache when every call passes a C boolean, 0 or 1, as its domain-parameters
flag; otherwise as `Reachable`. -/
inductive ReachableBool (H : Heap) : EVP_PKEY → List Event → Prop where
  | init (pk : EVP_PKEY) (h : ∀ s ∈ pk.pkeys, s.keymgmt = 0 ∧ s.provdata = 0) :
      ReachableBool H pk []
  | export_to_provider {pk : EVP_PKEY} {log : List Event} (M : Ptr) (f : Int) (r : Ptr)
      (pk1 : EVP_PKEY) (ev : List Event) (h : ReachableBool H pk log) (hf : f = 0 ∨ f = 1)
      (hcall : evp_keymgmt_export_to_provider H pk M f = some ((r, pk1), ev)) :
      ReachableBool H pk1 (log ++ ev)
  | fromdata {pk : EVP_PKEY} {log : List Event} (M : Ptr) (params : Params) (f : Int) (r : Ptr)
      (pk1 : EVP_PKEY) (ev : List Event) (h : ReachableBool H pk log) (hf : f = 0 ∨ f = 1)
      (hcall : evp_keymgmt_fromdata H pk M params f = some ((r, pk1), ev)) :
      ReachableBool H pk1 (log ++ ev)
  | clear {pk : EVP_PKEY} {log : List Event} (pk1 : EVP_PKEY) (ev : List Event)
      (h : ReachableBool H pk log)
      (hcall : evp_keymgmt_clear_pkey_cache H (some pk) = some (some pk1, ev)) :
      ReachableBool H pk1 (log ++ ev)
  | legacy {pk : EVP_PKEY} {log : List Event} (p : Ptr) (a : EVP_PKEY_ASN1_METHOD)
      (h : ReachableBool H pk log) :
      ReachableBool H { pk with pkey_ptr := p, ameth := a } log

/-- The flag of every live slot is a C boolean, 0 or 1. -/
def BoolFlags (l : List Slot) : Prop :=
  ∀ s ∈ l, s.keymgmt ≠ 0 → s.domainparams = 0 ∨ s.domainparams = 1

/-! ## Concrete descriptors, heaps and keys -/

/-- A descriptor without any operation. -/
def no_ops : EVP_KEYMGMT :=
  { provctx := 0, importdomparams := none, freedomparams := none, exportdomparams := none,
    get_domparam_params := none, gettable_domparam_params := none, validatedomparams := none,
    importkey := none, freekey := none, exportkey := none, get_key_params := none,
    gettable_key_params := none }

/-- An empty slot. -/
def empty_slot : Slot := { keymgmt := 0, provdata := 0, domainparams := 0 }

/-- A heap with two descriptors, at addresses 1 and 3, that can free keys. -/
def heap_legacy : Heap := fun p =>
  if p = 1 then some { no_ops with provctx := 100, freekey := some (fun _ => ()) }
  else if p = 3 then some { no_ops with provctx := 300, freekey := some (fun _ => ()) }
  else none

/-- A key with a legacy representation whose counter (1) has moved past
`dirty_cnt_copy` (0), one cached representation, and a legacy export that fails. -/
def key_stale_failing : EVP_PKEY :=
  { pkey_ptr := 1000,
    ameth := { dirty_cnt := some 1, export_to := some (fun _ _ => 0) },
    dirty_cnt_copy := 0,
    pkeys := [⟨1, 11, 0⟩, empty_slot],
    cache := { size := 32, bits := 256, security_bits := 128 } }

/-- The key `key_stale_failing` as the failing call leaves it. -/
def key_stale_failing_after : EVP_PKEY :=
  { key_stale_failing with
    pkeys := [empty_slot, empty_slot]
    cache := { size := 0, bits := 0, security_bits := 0 } }

/-- A manager that frees keys and exports a key by handing one parameter list to
the callback and returning what the callback returned. -/
def mgr_key_exporter : EVP_KEYMGMT :=
  { no_ops with
    provctx := 100
    freekey := some (fun _ => ())
    exportkey := some (fun _ => Export.call [("n", 5)] (fun r => Export.ret r)) }

/-- The same for domain parameters. -/
def mgr_domparam_exporter : EVP_KEYMGMT :=
  { no_ops with
    provctx := 200
    freedomparams := some (fun _ => ())
    exportdomparams := some (fun _ => Export.call [("g", 2)] (fun r => Export.ret r)) }

/-- A manager whose key get-params operation succeeds and reports 256 bits, 128
security bits and size 32, and whose domain-parameter get-params operation
fails. -/
def mgr_reporting : EVP_KEYMGMT :=
  { no_ops with
    provctx := 300
    freekey := some (fun _ => ())
    get_key_params := some (fun _ _ =>
      (1, fun k => if k = OSSL_PKEY_PARAM_BITS then some 256
                   else if k = OSSL_PKEY_PARAM_SECURITY_BITS then some 128
                   else if k = OSSL_PKEY_PARAM_MAX_SIZE then some 32 else none))
    get_domparam_params := some (fun _ _ => (0, fun _ => some 7)) }

/-- A heap with `mgr_key_exporter` at address 1, `mgr_domparam_exporter` at
address 2 and `mgr_reporting` at address 3. -/
def heap_two : Heap := fun p =>
  if p = 1 then some mgr_key_exporter
  else if p = 2 then some mgr_domparam_exporter
  else if p = 3 then some mgr_reporting
  else none

/-- A key without legacy representation that caches a key at slot 0 and domain
parameters at slot 1. -/
def key_two : EVP_PKEY :=
  { pkey_ptr := 0,
    ameth := { dirty_cnt := none, export_to := none },
    dirty_cnt_copy := 0,
    pkeys := [⟨1, 11, 0⟩, ⟨2, 22, 1⟩, empty_slot],
    cache := { size := 4, bits := 5, security_bits := 6 } }

/-- A heap with a manager that frees and exports keys at each of the addresses
11 to 20, and `mgr_reporting` at address 3. -/
def heap_ten : Heap := fun p =>
  if 11 ≤ p ∧ p ≤ 20 then some mgr_key_exporter
  else if p = 3 then some mgr_reporting
  else none

/-- Ten live slots, held by the managers at addresses 11 to 20. -/
def ten_slots : List Slot :=
  [⟨11, 101, 0⟩, ⟨12, 102, 0⟩, ⟨13, 103, 0⟩, ⟨14, 104, 0⟩, ⟨15, 105, 0⟩,
   ⟨16, 106, 0⟩, ⟨17, 107, 0⟩, ⟨18, 108, 0⟩, ⟨19, 109, 0⟩, ⟨20, 110, 0⟩]

/-- A key all of whose ten slots are live, with a legacy representation whose
counter (1) has moved past `dirty_cnt_copy` (0) and whose export succeeds. -/
def key_full_stale : EVP_PKEY :=
  { pkey_ptr := 1000,
    ameth := { dirty_cnt := some 1, export_to := some (fun _ _ => 77) },
    dirty_cnt_copy := 0,
    pkeys := ten_slots,
    cache := { size := 32, bits := 256, security_bits := 128 } }

/-- The same key once its watermark is current. -/
def key_full_current : EVP_PKEY := { key_full_stale with dirty_cnt_copy := 1 }

/-- A key with an empty cache and a legacy representation whose export yields a
fresh handle per flag value. -/
def key_legacy_empty : EVP_PKEY :=
  { pkey_ptr := 1000,
    ameth := { dirty_cnt := some 0, export_to := some (fun _ w => 50 + w.toNat) },
    dirty_cnt_copy := 0,
    pkeys := [empty_slot, empty_slot, empty_slot],
    cache := { size := 0, bits := 0, security_bits := 0 } }

/-- The key `key_legacy_empty` after a request with flag 1. -/
def key_legacy_flag1 : EVP_PKEY :=
  { key_legacy_empty with pkeys := [⟨3, 51, 1⟩, empty_slot, empty_slot] }

/-- The key `key_legacy_flag1` after a request with flag 2. -/
def key_legacy_flag2 : EVP_PKEY :=
  { key_legacy_empty with pkeys := [⟨3, 51, 1⟩, ⟨3, 52, 2⟩, empty_slot] }

/-- A manager whose key export hands one parameter list to the callback and then
reports failure, whatever the callback returned. -/
def mgr_export_then_fail : EVP_KEYMGMT :=
  { no_ops with
    provctx := 100
    freekey := some (fun _ => ())
    exportkey := some (fun _ => Export.call [("n", 5)] (fun _ => Export.ret 0)) }

/-- A manager whose key export reports success without calling the callback. -/
def mgr_export_nothing : EVP_KEYMGMT :=
  { no_ops with
    provctx := 200
    freekey := some (fun _ => ())
    exportkey := some (fun _ => Export.ret 1) }

/-- A second key exporter, with its own parameter list. -/
def mgr_key_exporter2 : EVP_KEYMGMT :=
  { no_ops with
    provctx := 200
    freekey := some (fun _ => ())
    exportkey := some (fun _ => Export.call [("n", 6)] (fun r => Export.ret r)) }

/-- A manager that imports any key: the handle is 70 plus the first integer of
the list.  Its provider context is the address `provctx`. -/
def mgr_importer (provctx : Ptr) : EVP_KEYMGMT :=
  { no_ops with
    provctx := provctx
    freekey := some (fun _ => ())
    importkey := some (fun _ params => 70 + (param_int params 0).toNat) }

/-- A manager whose key import yields the handle 99. -/
def mgr_other_importer : EVP_KEYMGMT :=
  { no_ops with
    provctx := 400
    importkey := some (fun _ _ => 99) }

/-- Managers at 1 (`mgr_export_then_fail`), 2 (`mgr_export_nothing`) and 3 (an
importer whose provider context is its own address 3). -/
def heap_stale_result : Heap := fun p =>
  if p = 1 then some mgr_export_then_fail
  else if p = 2 then some mgr_export_nothing
  else if p = 3 then some (mgr_importer 3)
  else none

/-- Two key exporters at 1 and 2 and an importer at 3 whose provider context, the
address 300, holds no descriptor. -/
def heap_bridge : Heap := fun p =>
  if p = 1 then some mgr_key_exporter
  else if p = 2 then some mgr_key_exporter2
  else if p = 3 then some (mgr_importer 300)
  else none

/-- As `heap_bridge`, with another importing descriptor at address 300. -/
def heap_bridge_aliased : Heap := fun p =>
  if p = 1 then some mgr_key_exporter
  else if p = 2 then some mgr_key_exporter2
  else if p = 3 then some (mgr_importer 300)
  else if p = 300 then some mgr_other_importer
  else none

/-- A key without legacy representation that caches keys of the managers at
addresses 1 and 2. -/
def key_bridge : EVP_PKEY :=
  { pkey_ptr := 0,
    ameth := { dirty_cnt := none, export_to := none },
    dirty_cnt_copy := 0,
    pkeys := [⟨1, 11, 0⟩, ⟨2, 22, 0⟩, empty_slot, empty_slot],
    cache := { size := 0, bits := 0, security_bits := 0 } }

/-- A key with a legacy representation whose counter (1) has moved past
`dirty_cnt_copy` (0), one cached representation, and a legacy export that
succeeds. -/
def key_stale_exporting : EVP_PKEY :=
  { pkey_ptr := 1000,
    ameth := { dirty_cnt := some 1, export_to := some (fun _ _ => 77) },
    dirty_cnt_copy := 0,
    pkeys := [⟨1, 11, 0⟩, empty_slot],
    cache := { size := 32, bits := 256, security_bits := 128 } }

/-- The key `key_bridge` after the request (3, 0) has been bridged on
`heap_bridge_aliased`. -/
def key_bridge_after : EVP_PKEY :=
  { key_bridge with pkeys := [⟨1, 11, 0⟩, ⟨2, 22, 0⟩, ⟨3, 99, 0⟩, empty_slot] }

/-- A key without legacy representation whose two slots are both live. -/
def key_full_bridge : EVP_PKEY :=
  { key_bridge with pkeys := [⟨1, 11, 0⟩, ⟨2, 22, 0⟩] }

/-- A key with an empty cache and a legacy representation whose counter is 0
and whose export yields the handle 11. -/
def key_fresh : EVP_PKEY :=
  { pkey_ptr := 1000,
    ameth := { dirty_cnt := some 0, export_to := some (fun _ _ => 11) },
    dirty_cnt_copy := 0,
    pkeys := [empty_slot, empty_slot],
    cache := { size := 0, bits := 0, security_bits := 0 } }

/-- The key `key_fresh` after the request (1, 0) has been served and the legacy
key has then been changed: its counter is 1 and its export yields 77. -/
def key_mutated : EVP_PKEY :=
  { pkey_ptr := 1000,
    ameth := { dirty_cnt := some 1, export_to := some (fun _ _ => 77) },
    dirty_cnt_copy := 0,
    pkeys := [⟨1, 11, 0⟩, empty_slot],
    cache := { size := 0, bits := 0, security_bits := 0 } }

/-- A key that caches one key of the manager at address 1 and has a legacy
representation whose backend exposes no mutation counter. -/
def key_untracked : EVP_PKEY :=
  { pkey_ptr := 1000,
    ameth := { dirty_cnt := none, export_to := some (fun _ _ => 77) },
    dirty_cnt_copy := 5,
    pkeys := [⟨1, 11, 0⟩, empty_slot],
    cache := { size := 32, bits := 256, security_bits := 128 } }

/-- A manager that can free keys and has no import operation.  Its provider
context is the address `provctx`. -/
def mgr_no_import (provctx : Ptr) : EVP_KEYMGMT :=
  { no_ops with
    provctx := provctx
    freekey := some (fun _ => ()) }

/-- `mgr_export_nothing` at address 1, `mgr_key_exporter` at address 2 and, at
address 3, a manager without import operation whose provider context is its own
address. -/
def heap_no_import : Heap := fun p =>
  if p = 1 then some mgr_export_nothing
  else if p = 2 then some mgr_key_exporter
  else if p = 3 then some (mgr_no_import 3)
  else none

/-- As `heap_no_import`, with the provider context of the manager at address 3
at address 300, where an importing descriptor lies. -/
def heap_no_import_aliased : Heap := fun p =>
  if p = 1 then some mgr_export_nothing
  else if p = 2 then some mgr_key_exporter
  else if p = 3 then some (mgr_no_import 300)
  else if p = 300 then some mgr_other_importer
  else none

/-- A key without legacy representation that caches a key of the manager at
address 1. -/
def key_one_silent : EVP_PKEY :=
  { key_bridge with pkeys := [⟨1, 11, 0⟩, empty_slot] }

/-- A key without legacy representation that caches a key of the manager at
address 2. -/
def key_one_exporter : EVP_PKEY :=
  { key_bridge with pkeys := [⟨2, 22, 0⟩, empty_slot] }

/-- A manager that can free keys and whose exports, of either kind, report
failure without calling the callback. -/
def mgr_refusing_exports : EVP_KEYMGMT :=
  { no_ops with
    provctx := 100
    freekey := some (fun _ => ())
    exportkey := some (fun _ => Export.ret 0)
    exportdomparams := some (fun _ => Export.ret 0) }

/-- `mgr_refusing_exports` at address 1 and an importer at address 3. -/
def heap_refusing : Heap := fun p =>
  if p = 1 then some mgr_refusing_exports
  else if p = 3 then some (mgr_importer 300)
  else none

/-- A manager whose key import rejects every list. -/
def mgr_rejecting_importer : EVP_KEYMGMT :=
  { no_ops with
    provctx := 300
    freekey := some (fun _ => ())
    importkey := some (fun _ _ => 0) }

/-- `mgr_key_exporter` at address 1, `mgr_domparam_exporter` at address 2 and an
importer at address 3. -/
def heap_cache_two : Heap := fun p =>
  if p = 1 then some mgr_key_exporter
  else if p = 2 then some mgr_domparam_exporter
  else if p = 3 then some (mgr_importer 300)
  else none

/-- `mgr_key_exporter` at address 1, `mgr_domparam_exporter` at address 2 and
`mgr_rejecting_importer` at address 3. -/
def heap_rejecting_two : Heap := fun p =>
  if p = 1 then some mgr_key_exporter
  else if p = 2 then some mgr_domparam_exporter
  else if p = 3 then some mgr_rejecting_importer
  else none

/-- A key with an empty cache and a legacy representation whose counter is 0
and whose export yields the handle 11 for the manager at address 1 and 22 for
the one at address 2. -/
def key_fresh_two : EVP_PKEY :=
  { pkey_ptr := 1000,
    ameth := { dirty_cnt := some 0, export_to := some (fun M _ => 11 * M) },
    dirty_cnt_copy := 0,
    pkeys := [empty_slot, empty_slot, empty_slot],
    cache := { size := 0, bits := 0, security_bits := 0 } }

/-- The key `key_fresh_two` after the requests (1, 0) and (2, 1) have been
served and the legacy representation has then been dropped: a key at slot 0,
domain parameters at slot 1. -/
def key_two_served : EVP_PKEY :=
  { pkey_ptr := 0,
    ameth := { dirty_cnt := none, export_to := none },
    dirty_cnt_copy := 0,
    pkeys := [⟨1, 11, 0⟩, ⟨2, 22, 1⟩, empty_slot],
    cache := { size := 0, bits := 0, security_bits := 0 } }

/-- A key without legacy representation whose two slots are both live, held by
the manager at address 1. -/
def key_full_refusing : EVP_PKEY :=
  { key_bridge with pkeys := [⟨1, 11, 0⟩, ⟨1, 12, 1⟩] }

/-- The key `key_legacy_empty` after the requests (3, 1) and (3, 0): domain
parameters and a key of the manager at address 3. -/
def key_legacy_both : EVP_PKEY :=
  { key_legacy_empty with pkeys := [⟨3, 51, 1⟩, ⟨3, 50, 0⟩, empty_slot] }

/-! ## Lemmas -/

theorem live_nil_iff (l : List Slot) : live l = [] ↔ ∀ s ∈ l, s.keymgmt = 0 := by
  simp [live, List.filter_eq_nil_iff]

theorem clear_loop_of_empty (H : Heap) (l : List Slot) (h : live l = []) :
    clear_loop H l = some (l, []) := by
  cases l with
  | nil => rfl
  | cons s rest =>
    have hs : s.keymgmt = 0 := (live_nil_iff _).1 h s (List.mem_cons_self _ _)
    simp [clear_loop, hs]

theorem free_calls_of_empty (l : List Slot) (h : live l = []) : free_calls l = [] := by
  induction l with
  | nil => rfl
  | cons s rest ih =>
    have hs : s.keymgmt = 0 := (live_nil_iff _).1 h s (List.mem_cons_self _ _)
    have hr : live rest = [] := (live_nil_iff _).2 (fun t ht => (live_nil_iff _).1 h t (List.mem_cons_of_mem _ ht))
    simp [free_calls, hs, ih hr]

theorem map_purge_of_empty (l : List Slot) (h : live l = []) : l.map purge = l := by
  have h1 := (live_nil_iff _).1 h
  calc l.map purge = l.map id := List.map_congr_left (fun s hs => by simp [purge, h1 s hs])
    _ = l := List.map_id l

theorem live_map_purge (l : List Slot) : live (l.map purge) = [] := by
  rw [live_nil_iff]
  intro s hs
  obtain ⟨t, _, rfl⟩ := List.mem_map.1 hs
  unfold purge
  split <;> simp_all

/-- On a contiguous array whose live slots can be freed, the loop of `clear`
runs to the end of the live slots, nulls each and issues exactly `free_calls`. -/
theorem clear_loop_contiguous (H : Heap) (l : List Slot) (hc : Contiguous l)
    (hf : ∀ s ∈ l, s.keymgmt ≠ 0 → Freeable H s) :
    clear_loop H l = some (l.map purge, free_calls l) := by
  induction l with
  | nil => rfl
  | cons s rest ih =>
    by_cases hs : s.keymgmt = 0
    · have hr : live rest = [] := hc.1 hs
      have hl : live (s :: rest) = [] := by
        rw [live_nil_iff]; intro t ht
        rcases List.mem_cons.1 ht with rfl | ht
        · exact hs
        · exact (live_nil_iff _).1 hr t ht
      rw [clear_loop_of_empty H _ hl, map_purge_of_empty _ hl, free_calls_of_empty _ hl]
    · have ih1 := ih hc.2 (fun t ht => hf t (List.mem_cons_of_mem _ ht))
      obtain ⟨m, hm, hcap⟩ := hf s (List.mem_cons_self _ _) hs
      by_cases hd : s.domainparams = 0
      · simp only [hd, ne_eq, not_true_eq_false, if_false] at hcap
        obtain ⟨f, hfk⟩ := Option.isSome_iff_exists.1 hcap
        simp [clear_loop, hs, hd, evp_keymgmt_freekey, hm, hfk, ih1, free_calls, purge,
          EVP_KEYMGMT_free]
      · simp only [hd, ne_eq, not_false_eq_true, if_true] at hcap
        obtain ⟨f, hfk⟩ := Option.isSome_iff_exists.1 hcap
        simp [clear_loop, hs, hd, evp_keymgmt_freedomparams, hm, hfk, ih1, free_calls, purge,
          EVP_KEYMGMT_free]

/-- Whatever the array, the loop of `clear` keeps its length and leaves the
slot at the index it started from empty. -/
theorem clear_loop_head (H : Heap) (l l1 : List Slot) (ev : List Event)
    (h : clear_loop H l = some (l1, ev)) :
    l1.length = l.length ∧ ∀ s, l1.head? = some s → s.keymgmt = 0 := by
  induction l generalizing l1 ev with
  | nil =>
    simp [clear_loop] at h
    obtain ⟨rfl, _⟩ := h
    simp
  | cons s rest ih =>
    by_cases hs : s.keymgmt = 0
    · simp [clear_loop, hs] at h
      obtain ⟨rfl, _⟩ := h
      simp [hs]
    · simp only [clear_loop, hs, if_false] at h
      split at h
      · exact absurd h (by simp)
      · split at h
        · exact absurd h (by simp)
        · rename_i rest1 ev2 hrest
          simp only [Option.some.injEq, Prod.mk.injEq] at h
          obtain ⟨rfl, _⟩ := h
          simp [(ih rest1 ev2 hrest).1]

/-- A scan that starts at an empty slot misses there. -/
theorem lookup_loop_head_empty (M : Ptr) (f : Int) (l : List Slot) (n : Nat)
    (h : ∀ s, l.head? = some s → s.keymgmt = 0) : lookup_loop M f l n = .miss n := by
  cases l with
  | nil => rfl
  | cons s rest => simp [lookup_loop, h s rfl]

/-- What a miss of the scan says: it stopped `k` slots after its start, every
slot it passed is live and differs from the request, the slot it stopped at (if
any) is empty, and storing the request there turns the scan into a hit. -/
theorem lookup_loop_miss (M : Ptr) (f : Int) (l : List Slot) (n i : Nat)
    (h : lookup_loop M f l n = .miss i) :
    ∃ k, i = n + k ∧ k ≤ l.length ∧
      (∀ s ∈ l.take k, s.keymgmt ≠ 0 ∧ ¬ (M = s.keymgmt ∧ f = s.domainparams)) ∧
      (∀ s, l[k]? = some s → s.keymgmt = 0) ∧
      (M ≠ 0 → k < l.length → ∀ r, lookup_loop M f (l.set k ⟨M, r, f⟩) n = .hit r) := by
  induction l generalizing n with
  | nil =>
    simp [lookup_loop] at h
    exact ⟨0, by omega, by simp, by simp, by simp, by simp⟩
  | cons s rest ih =>
    by_cases hs : s.keymgmt = 0
    · simp [lookup_loop, hs] at h
      refine ⟨0, by omega, by simp, by simp, by simp [hs], ?_⟩
      intro hM _ r
      simp [lookup_loop, hM]
    · by_cases hm : M = s.keymgmt ∧ f = s.domainparams
      · simp [lookup_loop, hs, hm] at h
      · simp only [lookup_loop, hs, hm, if_false] at h
        obtain ⟨k, hk, hlen, hpass, hstop, hset⟩ := ih (n + 1) h
        refine ⟨k + 1, by omega, by simp; omega, ?_, ?_, ?_⟩
        · intro t ht
          simp only [List.take_succ_cons, List.mem_cons] at ht
          rcases ht with rfl | ht
          · exact ⟨hs, hm⟩
          · exact hpass t ht
        · intro t ht
          simp only [List.getElem?_cons_succ] at ht
          exact hstop t ht
        · intro hM hlt r
          simp only [List.set_cons_succ, lookup_loop, hs, hm, if_false]
          exact hset hM (by simpa using hlt) r

theorem deref_ne_zero (H : Heap) (M : Ptr) (m : EVP_KEYMGMT) (h : deref H M = some m) : M ≠ 0 := by
  intro h0
  simp [deref, h0] at h

theorem invalidate_stale_cases (H : Heap) (pk : EVP_PKEY) (o : Option EVP_PKEY)
    (ev0 : List Event) (h : invalidate_stale H pk = some (o, ev0)) :
    (o = none ∧ ev0 = [] ∧ pk.pkey_ptr ≠ 0 ∧ pk.ameth.dirty_cnt = none) ∨
    (o = some pk ∧ ev0 = [] ∧ ¬ stale pk ∧ (pk.pkey_ptr ≠ 0 → pk.ameth.dirty_cnt = some pk.dirty_cnt_copy)) ∨
    (stale pk ∧ ∃ slots, clear_loop H pk.pkeys = some (slots, ev0) ∧
      o = some { pk with pkeys := slots, cache := { size := 0, bits := 0, security_bits := 0 } }) := by
  unfold invalidate_stale at h
  by_cases hp : pk.pkey_ptr = 0
  · simp [hp] at h
    obtain ⟨rfl, rfl⟩ := h
    exact Or.inr (Or.inl ⟨rfl, rfl, fun hs => hs.1 hp, fun h => absurd hp h⟩)
  · simp only [ne_eq, hp, not_false_eq_true, if_true] at h
    cases hd : pk.ameth.dirty_cnt with
    | none =>
      simp [hd] at h
      obtain ⟨rfl, rfl⟩ := h
      exact Or.inl ⟨rfl, rfl, hp, rfl⟩
    | some cnt =>
      simp only [hd] at h
      by_cases hc : cnt = pk.dirty_cnt_copy
      · simp [hc] at h
        obtain ⟨rfl, rfl⟩ := h
        refine Or.inr (Or.inl ⟨rfl, rfl, ?_, fun _ => by rw [hc]⟩)
        rintro ⟨_, c, hc1, hc2⟩
        rw [hd] at hc1
        cases hc1
        exact hc2 hc
      · simp only [ne_eq, hc, not_false_eq_true, if_true, evp_keymgmt_clear_pkey_cache] at h
        refine Or.inr (Or.inr ⟨⟨hp, cnt, hd, hc⟩, ?_⟩)
        cases hl : clear_loop H pk.pkeys with
        | none => simp [hl] at h
        | some res =>
          obtain ⟨slots, ev⟩ := res
          simp [hl] at h
          obtain ⟨rfl, rfl⟩ := h
          exact ⟨slots, rfl, rfl⟩

theorem produce_cases (H : Heap) (pk : EVP_PKEY) (M : Ptr) (f : Int) (i : Nat)
    (o : Option (Ptr × EVP_PKEY)) (ev1 : List Event) (h : produce H pk M f i = some (o, ev1)) :
    (o = none ∧ ev1 = [] ∧ pk.pkey_ptr ≠ 0 ∧ pk.ameth.export_to = none) ∨
    (pk.pkey_ptr ≠ 0 ∧ ∃ g, pk.ameth.export_to = some g ∧ ev1 = [Event.export_to M f] ∧
      ((g M f = 0 ∧ o = some (0, pk)) ∨
       (g M f ≠ 0 ∧ ∃ cnt, pk.ameth.dirty_cnt = some cnt ∧
          o = some (g M f, { pk with dirty_cnt_copy := cnt })))) ∨
    (pk.pkey_ptr = 0 ∧ ∃ p, o = some (p, pk) ∧
      bridge_loop H M f (pk.pkeys.take i)
        { provctx := 0,
          importfn := some (if f ≠ 0 then ImportFn.evp_keymgmt_importdomparams
                            else ImportFn.evp_keymgmt_importkey),
          provdata := 0 } = some (p, ev1)) := by
  unfold produce at h
  by_cases hp : pk.pkey_ptr = 0
  · simp only [hp, ne_eq, not_true_eq_false, if_false] at h
    refine Or.inr (Or.inr ⟨hp, ?_⟩)
    rw [if_neg (by simp)] at h
    split at h
    · simp at h
    · rename_i p ev hb
      simp only [Option.some.injEq, Prod.mk.injEq] at h
      obtain ⟨rfl, rfl⟩ := h
      exact ⟨p, rfl, hb⟩
  · simp only [ne_eq, hp, not_false_eq_true, if_true] at h
    cases he : pk.ameth.export_to with
    | none =>
      simp [he] at h
      obtain ⟨rfl, rfl⟩ := h
      exact Or.inl ⟨rfl, rfl, hp, rfl⟩
    | some g =>
      simp only [he] at h
      refine Or.inr (Or.inl ⟨hp, g, rfl, ?_⟩)
      by_cases hg : g M f = 0
      · simp [hg] at h
        obtain ⟨rfl, rfl⟩ := h
        exact ⟨rfl, Or.inl ⟨hg, rfl⟩⟩
      · simp only [hg, not_false_eq_true, if_true] at h
        cases hd : pk.ameth.dirty_cnt with
        | none => simp [hd] at h
        | some cnt =>
          simp [hd] at h
          obtain ⟨rfl, rfl⟩ := h
          exact ⟨rfl, Or.inr ⟨hg, cnt, rfl, rfl⟩⟩

theorem cache_pkey_cases (H : Heap) (pk : EVP_PKEY) (i : Nat) (M p : Ptr) (f : Int)
    (pk3 : EVP_PKEY) (ev2 : List Event)
    (h : evp_keymgmt_cache_pkey H pk i M p f = some (pk3, ev2)) :
    (p = 0 ∧ pk3 = pk ∧ ev2 = []) ∨
    (p ≠ 0 ∧ M ≠ 0 ∧ i < pk.pkeys.length ∧ pk3.pkeys = pk.pkeys.set i ⟨M, p, f⟩ ∧
      pk3.pkey_ptr = pk.pkey_ptr ∧ pk3.ameth = pk.ameth ∧
      pk3.dirty_cnt_copy = pk.dirty_cnt_copy ∧
      (i ≠ 0 → pk3.cache = pk.cache ∧ ev2 = [Event.up_ref M])) := by
  unfold evp_keymgmt_cache_pkey at h
  by_cases hp : p = 0
  · simp [hp] at h
    obtain ⟨rfl, rfl⟩ := h
    exact Or.inl ⟨hp, rfl, rfl⟩
  · simp only [ne_eq, hp, not_false_eq_true, if_true, EVP_KEYMGMT_up_ref] at h
    cases hd : deref H M with
    | none => simp [hd] at h
    | some m =>
      have hM := deref_ne_zero H M m hd
      simp only [hd] at h
      by_cases hi : i < pk.pkeys.length
      · simp only [hi, if_true] at h
        refine Or.inr ⟨hp, hM, hi, ?_⟩
        by_cases h0 : i = 0
        · simp only [h0, if_true] at h
          split at h
          · simp at h
          · split at h <;>
            · simp only [Option.some.injEq, Prod.mk.injEq] at h
              obtain ⟨rfl, rfl⟩ := h
              simp [h0]
        · simp only [h0, if_false] at h
          simp only [Option.some.injEq, Prod.mk.injEq] at h
          obtain ⟨rfl, rfl⟩ := h
          simp
      · simp [hi] at h

theorem invalidate_stale_fresh (H : Heap) (pk : EVP_PKEY)
    (h : pk.pkey_ptr = 0 ∨ pk.ameth.dirty_cnt = some pk.dirty_cnt_copy) :
    invalidate_stale H pk = some (some pk, []) := by
  unfold invalidate_stale
  by_cases hp : pk.pkey_ptr = 0
  · simp [hp]
  · rcases h with h | h
    · exact absurd h hp
    · simp [hp, h]

/-- The paths through `evp_keymgmt_export_to_provider` that return. -/
theorem export_cases (H : Heap) (pk : EVP_PKEY) (M : Ptr) (f : Int) (r : Ptr) (pk' : EVP_PKEY)
    (ev : List Event) (h : evp_keymgmt_export_to_provider H pk M f = some ((r, pk'), ev)) :
    (r = 0 ∧ pk' = pk ∧ ev = [] ∧ invalidate_stale H pk = some (none, [])) ∨
    ∃ pk1 ev0, invalidate_stale H pk = some (some pk1, ev0) ∧
      ((lookup_loop M f pk1.pkeys 0 = .hit r ∧ pk' = pk1 ∧ ev = ev0) ∨
       ∃ i o ev1, lookup_loop M f pk1.pkeys 0 = .miss i ∧ produce H pk1 M f i = some (o, ev1) ∧
         ((o = none ∧ r = 0 ∧ pk' = pk1 ∧ ev = ev0 ++ ev1) ∨
          ∃ p pk2, o = some (p, pk2) ∧
            ((¬ i < pk2.pkeys.length ∧ r = 0 ∧ pk' = pk2 ∧ ev = ev0 ++ ev1) ∨
             (i < pk2.pkeys.length ∧ r = p ∧
               ∃ ev2, evp_keymgmt_cache_pkey H pk2 i M p f = some (pk', ev2) ∧
                 ev = ev0 ++ ev1 ++ ev2)))) := by
  unfold evp_keymgmt_export_to_provider at h
  cases h1 : invalidate_stale H pk with
  | none => simp [h1] at h
  | some res1 =>
    obtain ⟨o1, ev0⟩ := res1
    cases o1 with
    | none =>
      simp only [h1, Option.some.injEq, Prod.mk.injEq] at h
      obtain ⟨⟨rfl, rfl⟩, rfl⟩ := h
      have := invalidate_stale_cases H _ none ev0 h1
      rcases this with ⟨_, he, _, _⟩ | ⟨hc, _⟩ | ⟨_, _, _, hc⟩
      · subst he
        exact Or.inl ⟨rfl, rfl, rfl, rfl⟩
      · cases hc
      · cases hc
    | some pk1 =>
      simp only [h1] at h
      refine Or.inr ⟨pk1, ev0, rfl, ?_⟩
      cases h2 : lookup_loop M f pk1.pkeys 0 with
      | hit q =>
        simp only [h2, Option.some.injEq, Prod.mk.injEq] at h
        obtain ⟨⟨rfl, rfl⟩, rfl⟩ := h
        exact Or.inl ⟨rfl, rfl, rfl⟩
      | miss i =>
        simp only [h2] at h
        refine Or.inr ⟨i, ?_⟩
        cases h3 : produce H pk1 M f i with
        | none => simp [h3] at h
        | some res3 =>
          obtain ⟨o, ev1⟩ := res3
          refine ⟨o, ev1, rfl, rfl, ?_⟩
          cases o with
          | none =>
            simp only [h3, Option.some.injEq, Prod.mk.injEq] at h
            obtain ⟨⟨rfl, rfl⟩, rfl⟩ := h
            exact Or.inl ⟨rfl, rfl, rfl, rfl⟩
          | some ppk =>
            obtain ⟨p, pk2⟩ := ppk
            refine Or.inr ⟨p, pk2, rfl, ?_⟩
            simp only [h3, ossl_assert] at h
            by_cases hi : i < pk2.pkeys.length
            · simp only [hi, decide_True, Bool.not_true, Bool.false_eq_true, if_false] at h
              cases h4 : evp_keymgmt_cache_pkey H pk2 i M p f with
              | none => simp [h4] at h
              | some res4 =>
                obtain ⟨pk3, ev2⟩ := res4
                simp only [h4, Option.some.injEq, Prod.mk.injEq] at h
                obtain ⟨⟨rfl, rfl⟩, rfl⟩ := h
                exact Or.inr ⟨hi, rfl, ev2, rfl, rfl⟩
            · simp only [hi, decide_False, Bool.not_false, if_true, Option.some.injEq,
                Prod.mk.injEq] at h
              obtain ⟨⟨rfl, rfl⟩, rfl⟩ := h
              exact Or.inl ⟨hi, rfl, rfl, rfl⟩

/-- A scan of an array that `clear` has just left misses at once. -/
theorem lookup_after_clear (H : Heap) (M : Ptr) (f : Int) (l l1 : List Slot) (ev : List Event)
    (h : clear_loop H l = some (l1, ev)) : lookup_loop M f l1 0 = .miss 0 :=
  lookup_loop_head_empty M f l1 0 (clear_loop_head H l l1 ev h).2

theorem produce_frame (H : Heap) (pk : EVP_PKEY) (M : Ptr) (f : Int) (i : Nat) (p : Ptr)
    (pk2 : EVP_PKEY) (ev1 : List Event) (h : produce H pk M f i = some (some (p, pk2), ev1)) :
    pk2.pkeys = pk.pkeys ∧ pk2.cache = pk.cache ∧ pk2.pkey_ptr = pk.pkey_ptr ∧
      pk2.ameth = pk.ameth := by
  rcases produce_cases H pk M f i _ ev1 h with ⟨hc, _⟩ | ⟨_, g, _, _, hg⟩ | ⟨_, q, hq, _⟩
  · cases hc
  · rcases hg with ⟨_, hc⟩ | ⟨_, cnt, _, hc⟩ <;> cases hc <;> exact ⟨rfl, rfl, rfl, rfl⟩
  · cases hq
    exact ⟨rfl, rfl, rfl, rfl⟩

/-- A call that returns `NULL` leaves slots and summary as the staleness block
(source lines 45-55) left them. -/
theorem export_null_frame (H : Heap) (pk : EVP_PKEY) (M : Ptr) (f : Int) (pk' : EVP_PKEY)
    (ev : List Event) (h : evp_keymgmt_export_to_provider H pk M f = some ((0, pk'), ev)) :
    (pk'.pkeys = pk.pkeys ∧ pk'.cache = pk.cache ∧ invalidate_stale H pk = some (none, [])) ∨
    ∃ pk1 ev0, invalidate_stale H pk = some (some pk1, ev0) ∧
      pk'.pkeys = pk1.pkeys ∧ pk'.cache = pk1.cache := by
  rcases export_cases H pk M f 0 pk' ev h with ⟨_, rfl, _, h1⟩ | ⟨pk1, ev0, hst, hrest⟩
  · exact Or.inl ⟨rfl, rfl, h1⟩
  · refine Or.inr ⟨pk1, ev0, hst, ?_⟩
    rcases hrest with ⟨_, rfl, _⟩ | ⟨i, o, ev1, _, hprod, hfin⟩
    · exact ⟨rfl, rfl⟩
    · rcases hfin with ⟨_, _, rfl, _⟩ | ⟨p, pk2, rfl, hfin⟩
      · exact ⟨rfl, rfl⟩
      · have hfr := produce_frame H pk1 M f i p pk2 ev1 hprod
        rcases hfin with ⟨_, _, rfl, _⟩ | ⟨_, rfl, ev2, hcache, _⟩
        · exact ⟨hfr.1, hfr.2.1⟩
        · rcases cache_pkey_cases H pk2 i M 0 f pk' ev2 hcache with ⟨_, rfl, _⟩ | ⟨h0, _⟩
          · exact ⟨hfr.1, hfr.2.1⟩
          · exact absurd rfl h0

theorem live_set_zero_of_empty (l : List Slot) (s : Slot) (hs : s.keymgmt ≠ 0) (hl : live l = [])
    (hne : l ≠ []) : live (l.set 0 s) = [s] ∧ (l.set 0 s).head? = some s := by
  cases l with
  | nil => exact absurd rfl hne
  | cons t rest =>
    have hr : live rest = [] :=
      (live_nil_iff _).2 (fun u hu => (live_nil_iff _).1 hl u (List.mem_cons_of_mem _ hu))
    have hr' : List.filter (fun s => decide (s.keymgmt ≠ 0)) rest = [] := hr
    simp [live, hs, hr']
    exact (live_nil_iff _).1 hr

/-- The store of `evp_keymgmt_cache_pkey` at index 0, for a non-null
representation and a valid descriptor. -/
theorem cache_pkey_zero (H : Heap) (pk : EVP_PKEY) (M p : Ptr) (f : Int) (m : EVP_KEYMGMT)
    (hp : p ≠ 0) (hm : deref H M = some m) (hlen : 0 < pk.pkeys.length) :
    ∃ ev, evp_keymgmt_cache_pkey H pk 0 M p f =
        some ({ pk with
                pkeys := pk.pkeys.set 0 ⟨M, p, f⟩
                cache := if (reported m p f).1 ≠ 0 then (reported m p f).2 else pk.cache }, ev) ∧
      ∀ e ∈ ev, e = Event.up_ref M ∨ e = Event.get_key_params M p ∨
        e = Event.get_domparam_params M p := by
  unfold evp_keymgmt_cache_pkey reported summary_request
  by_cases hf : f = 0
  · cases hg : m.get_key_params with
    | none =>
      simp [hp, EVP_KEYMGMT_up_ref, hm, hlen, hf, evp_keymgmt_get_key_params, hg, param_int]
    | some g =>
      by_cases hok : (g p [(OSSL_PKEY_PARAM_BITS, 0), (OSSL_PKEY_PARAM_SECURITY_BITS, 0),
          (OSSL_PKEY_PARAM_MAX_SIZE, 0)]).1 = 0
      · simp [hp, EVP_KEYMGMT_up_ref, hm, hlen, hf, evp_keymgmt_get_key_params, hg, param_int,
          store_params, hok] 
      · simp [hp, EVP_KEYMGMT_up_ref, hm, hlen, hf, evp_keymgmt_get_key_params, hg, param_int,
          store_params, hok]
  · cases hg : m.get_domparam_params with
    | none =>
      simp [hp, EVP_KEYMGMT_up_ref, hm, hlen, hf, evp_keymgmt_get_domparam_params, hg, param_int]
    | some g =>
      by_cases hok : (g p [(OSSL_PKEY_PARAM_BITS, 0), (OSSL_PKEY_PARAM_SECURITY_BITS, 0),
          (OSSL_PKEY_PARAM_MAX_SIZE, 0)]).1 = 0
      · simp [hp, EVP_KEYMGMT_up_ref, hm, hlen, hf, evp_keymgmt_get_domparam_params, hg,
          param_int, store_params, hok]
      · simp [hp, EVP_KEYMGMT_up_ref, hm, hlen, hf, evp_keymgmt_get_domparam_params, hg,
          param_int, store_params, hok]

theorem cache_pkey_zero_slots (H : Heap) (pk : EVP_PKEY) (M p : Ptr) (f : Int) (m : EVP_KEYMGMT)
    (hp : p ≠ 0) (hm : deref H M = some m) (hlen : 0 < pk.pkeys.length) :
    ∃ pk3 ev, evp_keymgmt_cache_pkey H pk 0 M p f = some (pk3, ev) ∧
      pk3.pkeys = pk.pkeys.set 0 ⟨M, p, f⟩ ∧
      ∀ e ∈ ev, e = Event.up_ref M ∨ e = Event.get_key_params M p ∨
        e = Event.get_domparam_params M p := by
  obtain ⟨ev, h, hev⟩ := cache_pkey_zero H pk M p f m hp hm hlen
  exact ⟨_, ev, h, rfl, hev⟩

theorem free_calls_count (l : List Slot) (m p : Ptr) :
    (free_calls l).count (Event.freekey m p) =
        (live l).countP (fun s => decide (s.keymgmt = m ∧ s.provdata = p ∧ s.domainparams = 0)) ∧
    (free_calls l).count (Event.freedomparams m p) =
        (live l).countP (fun s => decide (s.keymgmt = m ∧ s.provdata = p ∧ s.domainparams ≠ 0)) ∧
    (free_calls l).count (Event.free_ref m) =
        (live l).countP (fun s => decide (s.keymgmt = m)) := by
  induction l with
  | nil => simp [free_calls, live]
  | cons s rest ih =>
    obtain ⟨ih1, ih2, ih3⟩ := ih
    unfold live at ih1 ih2 ih3 ⊢
    by_cases hs : s.keymgmt = 0
    · simp [free_calls, hs, ih1, ih2, ih3]
    · by_cases hd : s.domainparams = 0
      · simp [free_calls, hs, hd, ih1, ih2, ih3, List.count_cons, List.countP_cons]
      · simp [free_calls, hs, hd, ih1, ih2, ih3, List.count_cons, List.countP_cons]

theorem lookup_loop_full (M : Ptr) (f : Int) (l : List Slot) (n : Nat)
    (hfull : ∀ s ∈ l, s.keymgmt ≠ 0) (hmiss : ∀ s ∈ l, ¬ (M = s.keymgmt ∧ f = s.domainparams)) :
    lookup_loop M f l n = .miss (n + l.length) := by
  induction l generalizing n with
  | nil => rfl
  | cons s rest ih =>
    have h1 := hfull s (List.mem_cons_self _ _)
    have h2 := hmiss s (List.mem_cons_self _ _)
    simp only [lookup_loop, h1, h2, if_false, List.length_cons]
    rw [ih (n + 1) (fun t ht => hfull t (List.mem_cons_of_mem _ ht))
      (fun t ht => hmiss t (List.mem_cons_of_mem _ ht))]
    congr 1
    omega

theorem contiguous_of_empty (l : List Slot) (h : live l = []) : Contiguous l := by
  induction l with
  | nil => trivial
  | cons s rest ih =>
    have hr : live rest = [] :=
      (live_nil_iff _).2 (fun t ht => (live_nil_iff _).1 h t (List.mem_cons_of_mem _ ht))
    exact ⟨fun _ => hr, ih hr⟩

theorem slotsInv_of_empty (l : List Slot) (h : live l = []) : SlotsInv l :=
  ⟨contiguous_of_empty l h, fun m f => by simp [slots_for, h]⟩

theorem contiguous_append_live (pre rest : List Slot) (hpre : ∀ s ∈ pre, s.keymgmt ≠ 0)
    (hrest : Contiguous rest) : Contiguous (pre ++ rest) := by
  induction pre with
  | nil => exact hrest
  | cons s pre ih =>
    refine ⟨fun h0 => absurd h0 (hpre s (List.mem_cons_self _ _)), ?_⟩
    exact ih (fun t ht => hpre t (List.mem_cons_of_mem _ ht))

theorem live_append (a b : List Slot) : live (a ++ b) = live a ++ live b := by
  simp [live]

theorem live_of_all_live (l : List Slot) (h : ∀ s ∈ l, s.keymgmt ≠ 0) : live l = l := by
  unfold live
  rw [List.filter_eq_self]
  intro s hs
  simpa using h s hs

/-- In a contiguous array everything from an empty slot on is empty. -/
theorem contiguous_drop (l : List Slot) (hc : Contiguous l) (k : Nat)
    (hk : ∀ s, l[k]? = some s → s.keymgmt = 0) : live (l.drop k) = [] := by
  induction l generalizing k with
  | nil => simp [live]
  | cons s rest ih =>
    cases k with
    | zero =>
      have hs : s.keymgmt = 0 := hk s (by simp)
      rw [List.drop_zero, live_nil_iff]
      intro t ht
      rcases List.mem_cons.1 ht with rfl | ht
      · exact hs
      · exact (live_nil_iff _).1 (hc.1 hs) t ht
    | succ k =>
      simp only [List.drop_succ_cons]
      exact ih hc.2 k (fun t ht => hk t (by simpa using ht))

/-- Storing a live slot at the end of the live run keeps the invariant, when no
slot of the run holds the same manager with the same flag value. -/
theorem slotsInv_set (l : List Slot) (k : Nat) (new : Slot) (hinv : SlotsInv l)
    (hk : k < l.length) (hnew : new.keymgmt ≠ 0)
    (hpass : ∀ s ∈ l.take k, s.keymgmt ≠ 0 ∧
      ¬ (new.keymgmt = s.keymgmt ∧ new.domainparams = s.domainparams))
    (hstop : ∀ s, l[k]? = some s → s.keymgmt = 0) : SlotsInv (l.set k new) := by
  obtain ⟨hc, hu⟩ := hinv
  have hdrop : live (l.drop k) = [] := contiguous_drop l hc k hstop
  have hdrop1 : live (l.drop (k + 1)) = [] := by
    rw [List.drop_eq_getElem_cons hk] at hdrop
    rw [live_nil_iff] at hdrop ⊢
    exact fun t ht => hdrop t (List.mem_cons_of_mem _ ht)
  have htake : live (l.take k) = l.take k := live_of_all_live _ (fun s hs => (hpass s hs).1)
  have hl : live l = l.take k := by
    conv_lhs => rw [← List.take_append_drop k l]
    rw [live_append, hdrop, htake, List.append_nil]
  have hnewlive : live [new] = [new] := live_of_all_live _ (by simpa using hnew)
  have hset : l.set k new = l.take k ++ new :: l.drop (k + 1) :=
    List.set_eq_take_append_cons_drop.trans (by simp [hk])
  have hcons : new :: l.drop (k + 1) = [new] ++ l.drop (k + 1) := rfl
  have hlive : live (l.set k new) = l.take k ++ [new] := by
    rw [hset, live_append, hcons, live_append, htake, hnewlive, hdrop1, List.append_nil]
  refine ⟨?_, ?_⟩
  · rw [hset]
    exact contiguous_append_live _ _ (fun s hs => (hpass s hs).1)
      ⟨fun h0 => absurd h0 hnew, contiguous_of_empty _ hdrop1⟩
  · intro m f
    have hold := hu m f
    unfold slots_for at hold ⊢
    rw [hl] at hold
    rw [hlive, List.countP_append]
    by_cases hmf : new.keymgmt = m ∧ new.domainparams = f
    · have hz : List.countP (fun s => decide (s.keymgmt = m ∧ s.domainparams = f)) (l.take k) = 0 := by
        rw [List.countP_eq_zero]
        intro s hs
        have := (hpass s hs).2
        simp only [decide_eq_true_eq]
        rintro ⟨h1, h2⟩
        exact this ⟨hmf.1.trans h1.symm, hmf.2.trans h2.symm⟩
      rw [hz]
      simp [List.countP_cons, hmf]
    · have hz : List.countP (fun s => decide (s.keymgmt = m ∧ s.domainparams = f)) [new] = 0 := by
        simp [List.countP_cons, hmf]
      rw [hz]
      exact hold

/-- The loop of `clear` leaves a contiguous array without live slot. -/
theorem clear_loop_empty (H : Heap) (l l1 : List Slot) (ev : List Event) (hc : Contiguous l)
    (h : clear_loop H l = some (l1, ev)) : live l1 = [] := by
  induction l generalizing l1 ev with
  | nil =>
    simp [clear_loop] at h
    rw [h.1]
    rfl
  | cons s rest ih =>
    by_cases hs : s.keymgmt = 0
    · simp [clear_loop, hs] at h
      rw [← h.1, live_nil_iff]
      intro t ht
      rcases List.mem_cons.1 ht with rfl | ht
      · exact hs
      · exact (live_nil_iff _).1 (hc.1 hs) t ht
    · simp only [clear_loop, hs, if_false] at h
      split at h
      · exact absurd h (by simp)
      · split at h
        · exact absurd h (by simp)
        · rename_i rest1 ev2 hrest
          simp only [Option.some.injEq, Prod.mk.injEq] at h
          obtain ⟨rfl, _⟩ := h
          have := ih rest1 ev2 hc.2 hrest
          rw [live_nil_iff] at this ⊢
          intro t ht
          rcases List.mem_cons.1 ht with rfl | ht
          · rfl
          · exact this t ht

theorem clear_pkey_cache_empty (H : Heap) (pk pk1 : EVP_PKEY) (ev : List Event)
    (hc : Contiguous pk.pkeys)
    (h : evp_keymgmt_clear_pkey_cache H (some pk) = some (some pk1, ev)) :
    live pk1.pkeys = [] := by
  unfold evp_keymgmt_clear_pkey_cache at h
  cases hl : clear_loop H pk.pkeys with
  | none => simp [hl] at h
  | some res =>
    obtain ⟨slots, ev1⟩ := res
    simp only [hl, Option.some.injEq, Prod.mk.injEq] at h
    obtain ⟨rfl, _⟩ := h
    exact clear_loop_empty H pk.pkeys slots ev1 hc hl

/-- `evp_keymgmt_export_to_provider` keeps the slot invariant. -/
theorem export_slotsInv (H : Heap) (pk : EVP_PKEY) (M : Ptr) (f : Int) (r : Ptr)
    (pk1 : EVP_PKEY) (ev : List Event)
    (h : evp_keymgmt_export_to_provider H pk M f = some ((r, pk1), ev))
    (hinv : SlotsInv pk.pkeys) : SlotsInv pk1.pkeys := by
  rcases export_cases H pk M f r pk1 ev h with ⟨_, rfl, _⟩ | ⟨pka, ev0, hst, hrest⟩
  · exact hinv
  · have hinva : SlotsInv pka.pkeys := by
      rcases invalidate_stale_cases H pk _ _ hst with ⟨hc, _⟩ | ⟨hc, _⟩ | ⟨_, slots, hcl, hc⟩
      · cases hc
      · cases hc
        exact hinv
      · cases hc
        exact slotsInv_of_empty _ (clear_loop_empty H pk.pkeys slots ev0 hinv.1 hcl)
    rcases hrest with ⟨_, rfl, _⟩ | ⟨i, o, ev1, hmiss, hprod, hfin⟩
    · exact hinva
    · rcases hfin with ⟨_, _, rfl, _⟩ | ⟨p, pk2, rfl, hfin⟩
      · exact hinva
      · have hfr := produce_frame H pka M f i p pk2 ev1 hprod
        rcases hfin with ⟨_, _, rfl, _⟩ | ⟨hi, rfl, ev2, hcache, _⟩
        · rw [hfr.1]
          exact hinva
        · rcases cache_pkey_cases H pk2 i M r f pk1 ev2 hcache with
            ⟨_, rfl, _⟩ | ⟨_, hM, _, hslots, _⟩
          · rw [hfr.1]
            exact hinva
          · obtain ⟨k, hk, _, hpass, hstop, _⟩ := lookup_loop_miss M f pka.pkeys 0 i hmiss
            have hk' : k = i := by omega
            subst hk'
            rw [hslots, hfr.1]
            exact slotsInv_set pka.pkeys k ⟨M, r, f⟩ hinva (by rw [← hfr.1]; exact hi) hM
              hpass hstop

/-- `evp_keymgmt_fromdata` establishes the slot invariant. -/
theorem fromdata_slotsInv (H : Heap) (pk : EVP_PKEY) (M : Ptr) (params : Params) (f : Int)
    (r : Ptr) (pk1 : EVP_PKEY) (ev : List Event)
    (h : evp_keymgmt_fromdata H pk M params f = some ((r, pk1), ev))
    (hinv : SlotsInv pk.pkeys) : SlotsInv pk1.pkeys := by
  unfold evp_keymgmt_fromdata at h
  split at h
  · exact absurd h (by simp)
  · rename_i p ev0 _
    split at h
    · rename_i pkc ev1 hclear
      have hempty := clear_pkey_cache_empty H pk pkc ev1 hinv.1 hclear
      cases hcache : evp_keymgmt_cache_pkey H pkc 0 M p f with
      | none => simp [hcache] at h
      | some res =>
        obtain ⟨pk3, ev2⟩ := res
        simp only [hcache, Option.some.injEq, Prod.mk.injEq] at h
        obtain ⟨⟨_, rfl⟩, _⟩ := h
        rcases cache_pkey_cases H pkc 0 M p f pk3 ev2 hcache with
          ⟨_, rfl, _⟩ | ⟨_, hM, hlen, hslots, _⟩
        · exact slotsInv_of_empty _ hempty
        · rw [hslots]
          refine slotsInv_set pkc.pkeys 0 ⟨M, p, f⟩ (slotsInv_of_empty _ hempty) hlen hM
            (by simp) ?_
          intro s hs
          exact (live_nil_iff _).1 hempty s (List.getElem?_mem hs)
    · exact absurd h (by simp)

/-- Every reachable key satisfies the slot invariant. -/
theorem reachable_slotsInv (H : Heap) (pk : EVP_PKEY) (log : List Event)
    (h : Reachable H pk log) : SlotsInv pk.pkeys := by
  induction h with
  | init pk h => exact slotsInv_of_empty _ ((live_nil_iff _).2 (fun s hs => (h s hs).1))
  | export_to_provider M f r pk1 ev _ hcall ih => exact export_slotsInv H _ M f r pk1 ev hcall ih
  | fromdata M params f r pk1 ev _ hcall ih =>
    exact fromdata_slotsInv H _ M params f r pk1 ev hcall ih
  | clear pk1 ev _ hcall ih =>
    exact slotsInv_of_empty _ (clear_pkey_cache_empty H _ pk1 ev ih.1 hcall)
  | legacy p a _ ih => exact ih

theorem slots_of_kind_eq (l : List Slot) (m : Ptr) (b : Bool)
    (h01 : ∀ s ∈ live l, s.domainparams = 0 ∨ s.domainparams = 1) :
    slots_of_kind l m b = slots_for l m (if b then 1 else 0) := by
  unfold slots_of_kind slots_for
  apply List.countP_congr
  intro s hs
  rcases h01 s hs with h | h <;> cases b <;> simp [h]

/-- The loop of `clear` returns when every live slot can be freed. -/
theorem clear_loop_total (H : Heap) (l : List Slot)
    (hf : ∀ s ∈ l, s.keymgmt ≠ 0 → Freeable H s) :
    ∃ l1 ev, clear_loop H l = some (l1, ev) := by
  induction l with
  | nil => exact ⟨[], [], rfl⟩
  | cons s rest ih =>
    by_cases hs : s.keymgmt = 0
    · exact ⟨s :: rest, [], by simp [clear_loop, hs]⟩
    · obtain ⟨rest1, ev2, h2⟩ := ih (fun t ht => hf t (List.mem_cons_of_mem _ ht))
      obtain ⟨m, hm, hcap⟩ := hf s (List.mem_cons_self _ _) hs
      by_cases hd : s.domainparams = 0
      · simp only [hd, ne_eq, not_true_eq_false, if_false] at hcap
        obtain ⟨g, hg⟩ := Option.isSome_iff_exists.1 hcap
        simp [clear_loop, hs, hd, evp_keymgmt_freekey, hm, hg, h2]
      · simp only [hd, ne_eq, not_false_eq_true, if_true] at hcap
        obtain ⟨g, hg⟩ := Option.isSome_iff_exists.1 hcap
        simp [clear_loop, hs, hd, evp_keymgmt_freedomparams, hm, hg, h2]

/-- The loop of `clear` does nothing on an array whose first slot is empty. -/
theorem clear_loop_head_empty (H : Heap) (l : List Slot)
    (h : ∀ s, l.head? = some s → s.keymgmt = 0) : clear_loop H l = some (l, []) := by
  cases l with
  | nil => rfl
  | cons s rest => simp [clear_loop, h s rfl]

/-- `evp_keymgmt_cache_pkey` returns for a non-null representation, a valid
manager and an index within the array. -/
theorem cache_pkey_total (H : Heap) (pk : EVP_PKEY) (i : Nat) (M p : Ptr) (f : Int)
    (m : EVP_KEYMGMT) (hp : p ≠ 0) (hm : deref H M = some m) (hi : i < pk.pkeys.length) :
    ∃ pk3 ev, evp_keymgmt_cache_pkey H pk i M p f = some (pk3, ev) := by
  by_cases h0 : i = 0
  · subst h0
    obtain ⟨ev, h, _⟩ := cache_pkey_zero H pk M p f m hp hm hi
    exact ⟨_, ev, h⟩
  · simp [evp_keymgmt_cache_pkey, hp, EVP_KEYMGMT_up_ref, hm, hi, h0]

/-- The staleness block on a key with a legacy representation and a counter,
when the request is not answered from the cache: it returns a key with the same
legacy members and watermark, on which the scan misses. -/
theorem invalidate_stale_miss (H : Heap) (pk : EVP_PKEY) (M : Ptr) (f : Int) (cnt : Nat)
    (hleg : pk.pkey_ptr ≠ 0) (hcnt : pk.ameth.dirty_cnt = some cnt)
    (hmiss : cache_miss pk M f) (hf : ∀ s ∈ pk.pkeys, s.keymgmt ≠ 0 → Freeable H s) :
    ∃ pk1 ev0 i, invalidate_stale H pk = some (some pk1, ev0) ∧
      lookup_loop M f pk1.pkeys 0 = Lookup.miss i ∧ pk1.pkey_ptr = pk.pkey_ptr ∧
      pk1.ameth = pk.ameth ∧ pk1.dirty_cnt_copy = pk.dirty_cnt_copy := by
  by_cases hc : cnt = pk.dirty_cnt_copy
  · have hns : ¬ stale pk := by
      rintro ⟨_, c, hc1, hc2⟩
      rw [hcnt] at hc1
      cases hc1
      exact hc2 hc
    rcases hmiss with hs | ⟨i, hi⟩
    · exact absurd hs hns
    · exact ⟨pk, [], i, invalidate_stale_fresh H pk (Or.inr (hc ▸ hcnt)), hi, rfl, rfl, rfl⟩
  · obtain ⟨l1, ev, hl⟩ := clear_loop_total H pk.pkeys hf
    refine ⟨{ pk with pkeys := l1, cache := { size := 0, bits := 0, security_bits := 0 } }, ev, 0,
      ?_, lookup_after_clear H M f pk.pkeys l1 ev hl, rfl, rfl, rfl⟩
    simp [invalidate_stale, hleg, hcnt, hc, evp_keymgmt_clear_pkey_cache, hl]

/-- The import of lines 214-216, through a valid descriptor that has the
operation. -/
theorem fromdata_import (H : Heap) (M : Ptr) (params : Params) (f : Int) (m : EVP_KEYMGMT)
    (g : Ptr → Params → Ptr) (hm : deref H M = some m) (hg : import_op m f = some g) :
    (if f ≠ 0 then evp_keymgmt_importdomparams H M params
     else evp_keymgmt_importkey H M params)
      = some (g m.provctx params, [import_event M params f]) := by
  unfold import_op at hg
  by_cases hf : f = 0
  · simp only [hf, ne_eq, not_true_eq_false, if_false] at hg
    simp [hf, evp_keymgmt_importkey, hm, hg, import_event]
  · simp only [hf, ne_eq, not_false_eq_true, if_true] at hg
    simp [hf, evp_keymgmt_importdomparams, hm, hg, import_event]

theorem paired_set (l : List Slot) (k : Nat) (new : Slot) (h : Paired l)
    (hp : new.provdata ≠ 0) (hk : new.keymgmt ≠ 0) : Paired (l.set k new) := by
  intro s hs
  rcases List.mem_or_eq_of_mem_set hs with hs | rfl
  · exact h s hs
  · exact ⟨fun _ => hk, fun _ => hp⟩

theorem clear_loop_paired (H : Heap) (l l1 : List Slot) (ev : List Event) (hp : Paired l)
    (h : clear_loop H l = some (l1, ev)) : Paired l1 := by
  induction l generalizing l1 ev with
  | nil =>
    simp [clear_loop] at h
    rw [h.1]
    exact hp
  | cons s rest ih =>
    by_cases hs : s.keymgmt = 0
    · simp [clear_loop, hs] at h
      rw [← h.1]
      exact hp
    · simp only [clear_loop, hs, if_false] at h
      split at h
      · exact absurd h (by simp)
      · split at h
        · exact absurd h (by simp)
        · rename_i rest1 ev2 hrest
          simp only [Option.some.injEq, Prod.mk.injEq] at h
          obtain ⟨rfl, _⟩ := h
          have hr := ih rest1 ev2 (fun t ht => hp t (List.mem_cons_of_mem _ ht)) hrest
          intro t ht
          rcases List.mem_cons.1 ht with rfl | ht
          · simp
          · exact hr t ht

theorem clear_pkey_cache_paired (H : Heap) (pk pk1 : EVP_PKEY) (ev : List Event)
    (hp : Paired pk.pkeys)
    (h : evp_keymgmt_clear_pkey_cache H (some pk) = some (some pk1, ev)) :
    Paired pk1.pkeys := by
  unfold evp_keymgmt_clear_pkey_cache at h
  cases hl : clear_loop H pk.pkeys with
  | none => simp [hl] at h
  | some res =>
    obtain ⟨slots, ev1⟩ := res
    simp only [hl, Option.some.injEq, Prod.mk.injEq] at h
    obtain ⟨rfl, _⟩ := h
    exact clear_loop_paired H pk.pkeys slots ev1 hp hl

theorem cache_pkey_paired (H : Heap) (pk : EVP_PKEY) (i : Nat) (M p : Ptr) (f : Int)
    (pk3 : EVP_PKEY) (ev2 : List Event) (hp : Paired pk.pkeys)
    (h : evp_keymgmt_cache_pkey H pk i M p f = some (pk3, ev2)) : Paired pk3.pkeys := by
  rcases cache_pkey_cases H pk i M p f pk3 ev2 h with ⟨_, rfl, _⟩ | ⟨hp0, hM, _, hslots, _⟩
  · exact hp
  · rw [hslots]
    exact paired_set _ _ _ hp hp0 hM

theorem export_paired (H : Heap) (pk : EVP_PKEY) (M : Ptr) (f : Int) (r : Ptr)
    (pk1 : EVP_PKEY) (ev : List Event)
    (h : evp_keymgmt_export_to_provider H pk M f = some ((r, pk1), ev))
    (hp : Paired pk.pkeys) : Paired pk1.pkeys := by
  rcases export_cases H pk M f r pk1 ev h with ⟨_, rfl, _⟩ | ⟨pka, ev0, hst, hrest⟩
  · exact hp
  · have hpa : Paired pka.pkeys := by
      rcases invalidate_stale_cases H pk _ _ hst with ⟨hc, _⟩ | ⟨hc, _⟩ | ⟨_, slots, hcl, hc⟩
      · cases hc
      · cases hc
        exact hp
      · cases hc
        exact clear_loop_paired H pk.pkeys slots ev0 hp hcl
    rcases hrest with ⟨_, rfl, _⟩ | ⟨i, o, ev1, _, hprod, hfin⟩
    · exact hpa
    · rcases hfin with ⟨_, _, rfl, _⟩ | ⟨p, pk2, rfl, hfin⟩
      · exact hpa
      · have hfr := produce_frame H pka M f i p pk2 ev1 hprod
        have hp2 : Paired pk2.pkeys := by
          rw [hfr.1]
          exact hpa
        rcases hfin with ⟨_, _, rfl, _⟩ | ⟨_, rfl, ev2, hcache, _⟩
        · exact hp2
        · exact cache_pkey_paired H pk2 i M r f pk1 ev2 hp2 hcache

theorem fromdata_paired (H : Heap) (pk : EVP_PKEY) (M : Ptr) (params : Params) (f : Int)
    (r : Ptr) (pk1 : EVP_PKEY) (ev : List Event)
    (h : evp_keymgmt_fromdata H pk M params f = some ((r, pk1), ev))
    (hp : Paired pk.pkeys) : Paired pk1.pkeys := by
  unfold evp_keymgmt_fromdata at h
  split at h
  · exact absurd h (by simp)
  · rename_i p ev0 _
    split at h
    · rename_i pkc ev1 hclear
      have hpc := clear_pkey_cache_paired H pk pkc ev1 hp hclear
      cases hcache : evp_keymgmt_cache_pkey H pkc 0 M p f with
      | none => simp [hcache] at h
      | some res =>
        obtain ⟨pk3, ev2⟩ := res
        simp only [hcache, Option.some.injEq, Prod.mk.injEq] at h
        obtain ⟨⟨_, rfl⟩, _⟩ := h
        exact cache_pkey_paired H pkc 0 M p f pk3 ev2 hpc hcache
    · exact absurd h (by simp)

theorem reachable_paired (H : Heap) (pk : EVP_PKEY) (log : List Event)
    (h : Reachable H pk log) : Paired pk.pkeys := by
  induction h with
  | init pk h =>
    intro s hs
    simp [(h s hs).1, (h s hs).2]
  | export_to_provider M f r pk1 ev _ hcall ih => exact export_paired H _ M f r pk1 ev hcall ih
  | fromdata M params f r pk1 ev _ hcall ih =>
    exact fromdata_paired H _ M params f r pk1 ev hcall ih
  | clear pk1 ev _ hcall ih => exact clear_pkey_cache_paired H _ pk1 ev ih hcall
  | legacy p a _ ih => exact ih

theorem count_ref_zero (ev : List Event) (h : ev.filter is_ref_event = []) (m : Ptr) :
    ev.count (Event.up_ref m) = 0 ∧ ev.count (Event.free_ref m) = 0 := by
  rw [List.filter_eq_nil_iff] at h
  constructor
  · rw [List.count_eq_zero]
    intro hmem
    exact h _ hmem rfl
  · rw [List.count_eq_zero]
    intro hmem
    exact h _ hmem rfl

theorem try_import_no_ref (H : Heap) (params : Params) (d : import_data_st)
    (out : Int × import_data_st) (ev : List Event)
    (h : try_import H params d = some (out, ev)) : ev.filter is_ref_event = [] := by
  unfold try_import at h
  cases hfn : d.importfn with
  | none => simp [hfn] at h
  | some fn =>
    simp only [hfn] at h
    cases fn with
    | evp_keymgmt_importdomparams =>
      simp only [ImportFn.call, evp_keymgmt_importdomparams] at h
      split at h
      · simp at h
      · rename_i p ev1 hcall
        simp only [Option.some.injEq, Prod.mk.injEq] at h
        obtain ⟨_, rfl⟩ := h
        split at hcall
        · simp at hcall
        · split at hcall
          · simp at hcall
          · simp only [Option.some.injEq, Prod.mk.injEq] at hcall
            obtain ⟨_, rfl⟩ := hcall
            rfl
    | evp_keymgmt_importkey =>
      simp only [ImportFn.call, evp_keymgmt_importkey] at h
      split at h
      · simp at h
      · rename_i p ev1 hcall
        simp only [Option.some.injEq, Prod.mk.injEq] at h
        obtain ⟨_, rfl⟩ := h
        split at hcall
        · simp at hcall
        · split at hcall
          · simp at hcall
          · simp only [Option.some.injEq, Prod.mk.injEq] at hcall
            obtain ⟨_, rfl⟩ := hcall
            rfl

theorem export_run_no_ref (H : Heap) (e : Export) (d : import_data_st)
    (out : Int × import_data_st) (ev : List Event)
    (h : e.run (try_import H) d = some (out, ev)) : ev.filter is_ref_event = [] := by
  induction e generalizing d out ev with
  | ret r =>
    simp only [Export.run, Option.some.injEq, Prod.mk.injEq] at h
    rw [← h.2]
    rfl
  | call params k ih =>
    simp only [Export.run] at h
    split at h
    · simp at h
    · rename_i r d1 ev1 h1
      split at h
      · simp at h
      · rename_i out2 ev2 h2
        simp only [Option.some.injEq, Prod.mk.injEq] at h
        obtain ⟨_, rfl⟩ := h
        rw [List.filter_append, try_import_no_ref H params d _ ev1 h1, ih r d1 out2 ev2 h2]
        rfl

theorem export_call_no_ref (H : Heap) (fn : ExportFn) (s : Slot) (d : import_data_st)
    (out : Int × import_data_st) (ev : List Event)
    (h : ExportFn.call H fn s.keymgmt s.provdata (try_import H) d = some (out, ev)) :
    ev.filter is_ref_event = [] := by
  cases fn with
  | evp_keymgmt_exportdomparams =>
    simp only [ExportFn.call, evp_keymgmt_exportdomparams] at h
    split at h
    · simp at h
    · split at h
      · simp at h
      · split at h
        · simp at h
        · rename_i out1 ev1 hrun
          simp only [Option.some.injEq, Prod.mk.injEq] at h
          obtain ⟨_, rfl⟩ := h
          simp [List.filter_cons, is_ref_event, export_run_no_ref H _ d out1 ev1 hrun]
  | evp_keymgmt_exportkey =>
    simp only [ExportFn.call, evp_keymgmt_exportkey] at h
    split at h
    · simp at h
    · split at h
      · simp at h
      · split at h
        · simp at h
        · rename_i out1 ev1 hrun
          simp only [Option.some.injEq, Prod.mk.injEq] at h
          obtain ⟨_, rfl⟩ := h
          simp [List.filter_cons, is_ref_event, export_run_no_ref H _ d out1 ev1 hrun]

theorem bridge_loop_no_ref (H : Heap) (M : Ptr) (f : Int) (l : List Slot)
    (d : import_data_st) (p : Ptr) (ev : List Event)
    (h : bridge_loop H M f l d = some (p, ev)) : ev.filter is_ref_event = [] := by
  induction l generalizing d p ev with
  | nil =>
    simp only [bridge_loop, Option.some.injEq, Prod.mk.injEq] at h
    rw [← h.2]
    rfl
  | cons s rest ih =>
    by_cases hs : s.keymgmt = 0
    · simp only [bridge_loop, hs, if_true, Option.some.injEq, Prod.mk.injEq] at h
      rw [← h.2]
      rfl
    · simp only [bridge_loop, hs, if_false] at h
      split at h
      · simp at h
      · split at h
        · simp at h
        · rename_i r d1 ev1 hcall
          have hev1 := export_call_no_ref H _ s _ (r, d1) ev1 hcall
          by_cases hwin : r ≠ 0 ∧ d1.provdata ≠ 0
          · rw [if_pos hwin] at h
            simp only [Option.some.injEq, Prod.mk.injEq] at h
            rw [← h.2]
            exact hev1
          · rw [if_neg hwin] at h
            split at h
            · simp at h
            · rename_i p2 ev2 hrest
              simp only [Option.some.injEq, Prod.mk.injEq] at h
              rw [← h.2, List.filter_append, hev1, ih d1 p2 ev2 hrest]
              rfl

theorem produce_no_ref (H : Heap) (pk : EVP_PKEY) (M : Ptr) (f : Int) (i : Nat)
    (o : Option (Ptr × EVP_PKEY)) (ev1 : List Event) (h : produce H pk M f i = some (o, ev1)) :
    ev1.filter is_ref_event = [] := by
  rcases produce_cases H pk M f i o ev1 h with ⟨_, rfl, _⟩ | ⟨_, g, _, rfl, _⟩ | ⟨_, p, _, hbr⟩
  · rfl
  · rfl
  · exact bridge_loop_no_ref H M f _ _ p ev1 hbr

/-- What the loop of `clear` returns on a contiguous array, whenever it returns. -/
theorem clear_loop_result (H : Heap) (l l1 : List Slot) (ev : List Event) (hc : Contiguous l)
    (h : clear_loop H l = some (l1, ev)) : l1 = l.map purge ∧ ev = free_calls l := by
  induction l generalizing l1 ev with
  | nil =>
    simp [clear_loop] at h
    exact ⟨h.1, h.2⟩
  | cons s rest ih =>
    by_cases hs : s.keymgmt = 0
    · have hl : live (s :: rest) = [] := by
        rw [live_nil_iff]
        intro t ht
        rcases List.mem_cons.1 ht with rfl | ht
        · exact hs
        · exact (live_nil_iff _).1 (hc.1 hs) t ht
      rw [clear_loop_of_empty H _ hl] at h
      simp only [Option.some.injEq, Prod.mk.injEq] at h
      rw [← h.1, ← h.2, map_purge_of_empty _ hl, free_calls_of_empty _ hl]
      exact ⟨rfl, rfl⟩
    · simp only [clear_loop, hs, if_false] at h
      by_cases hd : s.domainparams = 0
      · simp only [hd, ne_eq, not_true_eq_false, if_false, evp_keymgmt_freekey] at h
        split at h
        · exact absurd h (by simp)
        · rename_i u ev1 hfree
          split at h
          · exact absurd h (by simp)
          · rename_i rest1 ev2 hrest
            obtain ⟨h1, h2⟩ := ih rest1 ev2 hc.2 hrest
            simp only [Option.some.injEq, Prod.mk.injEq] at h
            obtain ⟨rfl, rfl⟩ := h
            split at hfree
            · simp at hfree
            · split at hfree
              · simp at hfree
              · simp only [Option.some.injEq, Prod.mk.injEq] at hfree
                obtain ⟨_, rfl⟩ := hfree
                simp [h1, h2, purge, hs, hd, free_calls, EVP_KEYMGMT_free]
      · simp only [hd, ne_eq, not_false_eq_true, if_true, evp_keymgmt_freedomparams] at h
        split at h
        · exact absurd h (by simp)
        · rename_i u ev1 hfree
          split at h
          · exact absurd h (by simp)
          · rename_i rest1 ev2 hrest
            obtain ⟨h1, h2⟩ := ih rest1 ev2 hc.2 hrest
            simp only [Option.some.injEq, Prod.mk.injEq] at h
            obtain ⟨rfl, rfl⟩ := h
            split at hfree
            · simp at hfree
            · split at hfree
              · simp at hfree
              · simp only [Option.some.injEq, Prod.mk.injEq] at hfree
                obtain ⟨_, rfl⟩ := hfree
                simp [h1, h2, purge, hs, hd, free_calls, EVP_KEYMGMT_free]

theorem free_calls_refs (l : List Slot) (m : Ptr) :
    (free_calls l).count (Event.up_ref m) = 0 ∧
    (free_calls l).count (Event.free_ref m) = held l m := by
  induction l with
  | nil => simp [free_calls, held, live]
  | cons s rest ih =>
    obtain ⟨ih1, ih2⟩ := ih
    unfold held live at ih2 ⊢
    by_cases hs : s.keymgmt = 0
    · simp [free_calls, hs, ih1, ih2]
    · by_cases hd : s.domainparams = 0
      · simp [free_calls, hs, hd, ih1, ih2, List.count_cons, List.countP_cons]
      · simp [free_calls, hs, hd, ih1, ih2, List.count_cons, List.countP_cons]

/-- The references that a clear which returns releases: one per live slot, and
none is taken. -/
theorem clear_balance (H : Heap) (pk pk1 : EVP_PKEY) (ev : List Event)
    (hc : Contiguous pk.pkeys)
    (h : evp_keymgmt_clear_pkey_cache H (some pk) = some (some pk1, ev)) (m : Ptr) :
    ev.count (Event.up_ref m) = 0 ∧ ev.count (Event.free_ref m) = held pk.pkeys m ∧
      held pk1.pkeys m = 0 := by
  unfold evp_keymgmt_clear_pkey_cache at h
  cases hl : clear_loop H pk.pkeys with
  | none => simp [hl] at h
  | some res =>
    obtain ⟨slots, ev1⟩ := res
    simp only [hl, Option.some.injEq, Prod.mk.injEq] at h
    obtain ⟨rfl, rfl⟩ := h
    obtain ⟨h1, h2⟩ := clear_loop_result H pk.pkeys slots ev1 hc hl
    subst h1 h2
    refine ⟨(free_calls_refs _ m).1, (free_calls_refs _ m).2, ?_⟩
    simp [held, live_map_purge]

/-- A store that returns takes exactly one reference, on the manager stored. -/
theorem cache_pkey_refs (H : Heap) (pk : EVP_PKEY) (i : Nat) (M p : Ptr) (f : Int)
    (pk3 : EVP_PKEY) (ev2 : List Event) (hp : p ≠ 0)
    (h : evp_keymgmt_cache_pkey H pk i M p f = some (pk3, ev2)) (m : Ptr) :
    ev2.count (Event.up_ref m) = (if M = m then 1 else 0) ∧
      ev2.count (Event.free_ref m) = 0 := by
  rcases cache_pkey_cases H pk i M p f pk3 ev2 h with ⟨h0, _⟩ | ⟨_, _, hi, _, _, _, _, hne⟩
  · exact absurd h0 hp
  · by_cases h0 : i = 0
    · subst h0
      cases hd : deref H M with
      | none => simp [evp_keymgmt_cache_pkey, hp, EVP_KEYMGMT_up_ref, hd] at h
      | some m1 =>
        simp only [evp_keymgmt_cache_pkey, ne_eq, hp, not_false_eq_true, if_true,
          EVP_KEYMGMT_up_ref, hd, hi] at h
        by_cases hf : f = 0
        · simp only [hf, not_true_eq_false, if_false, evp_keymgmt_get_key_params, hd] at h
          cases hg : m1.get_key_params with
          | none =>
            simp [hg] at h
            rw [← h.2]
            simp [List.count_cons]
          | some g =>
            simp only [hg] at h
            split at h <;>
            · simp only [Option.some.injEq, Prod.mk.injEq] at h
              rw [← h.2]
              simp [List.count_cons]
        · simp only [hf, not_false_eq_true, if_true, evp_keymgmt_get_domparam_params, hd] at h
          cases hg : m1.get_domparam_params with
          | none =>
            simp [hg] at h
            rw [← h.2]
            simp [List.count_cons]
          | some g =>
            simp only [hg] at h
            split at h <;>
            · simp only [Option.some.injEq, Prod.mk.injEq] at h
              rw [← h.2]
              simp [List.count_cons]
    · rw [(hne h0).2]
      simp [List.count_cons]

/-- Storing a live slot at the end of the live run adds one live slot, the
stored one. -/
theorem held_set (l : List Slot) (k : Nat) (new : Slot) (hc : Contiguous l)
    (hk : k < l.length) (hnew : new.keymgmt ≠ 0)
    (hpass : ∀ s ∈ l.take k, s.keymgmt ≠ 0)
    (hstop : ∀ s, l[k]? = some s → s.keymgmt = 0) (m : Ptr) :
    held (l.set k new) m = held l m + (if new.keymgmt = m then 1 else 0) := by
  have hdrop : live (l.drop k) = [] := contiguous_drop l hc k hstop
  have hdrop1 : live (l.drop (k + 1)) = [] := by
    rw [List.drop_eq_getElem_cons hk] at hdrop
    rw [live_nil_iff] at hdrop ⊢
    exact fun t ht => hdrop t (List.mem_cons_of_mem _ ht)
  have htake : live (l.take k) = l.take k := live_of_all_live _ hpass
  have hl : live l = l.take k := by
    conv_lhs => rw [← List.take_append_drop k l]
    rw [live_append, hdrop, htake, List.append_nil]
  have hnewlive : live [new] = [new] := live_of_all_live _ (by simpa using hnew)
  have hset : l.set k new = l.take k ++ new :: l.drop (k + 1) :=
    List.set_eq_take_append_cons_drop.trans (by simp [hk])
  have hcons : new :: l.drop (k + 1) = [new] ++ l.drop (k + 1) := rfl
  have hlive : live (l.set k new) = l.take k ++ [new] := by
    rw [hset, live_append, hcons, live_append, htake, hnewlive, hdrop1, List.append_nil]
  unfold held
  rw [hlive, hl, List.countP_append]
  simp [List.countP_cons]

/-- References taken and released by one returning call of
`evp_keymgmt_export_to_provider`, against the change in live slots. -/
theorem export_balance (H : Heap) (pk : EVP_PKEY) (M : Ptr) (f : Int) (r : Ptr)
    (pk1 : EVP_PKEY) (ev : List Event) (hc : Contiguous pk.pkeys)
    (h : evp_keymgmt_export_to_provider H pk M f = some ((r, pk1), ev)) (m : Ptr) :
    ev.count (Event.up_ref m) + held pk.pkeys m =
      ev.count (Event.free_ref m) + held pk1.pkeys m := by
  rcases export_cases H pk M f r pk1 ev h with ⟨_, rfl, rfl, _⟩ | ⟨pka, ev0, hst, hrest⟩
  · simp
  · have hA : ev0.count (Event.up_ref m) = 0 ∧
        ev0.count (Event.free_ref m) + held pka.pkeys m = held pk.pkeys m ∧
        Contiguous pka.pkeys := by
      rcases invalidate_stale_cases H pk _ _ hst with ⟨hc0, _⟩ | ⟨hc0, rfl, _⟩ | ⟨_, slots, hcl, hc0⟩
      · cases hc0
      · cases hc0
        exact ⟨by simp, by simp, hc⟩
      · cases hc0
        obtain ⟨h1, h2⟩ := clear_loop_result H pk.pkeys slots ev0 hc hcl
        subst h1 h2
        refine ⟨(free_calls_refs _ m).1, ?_, contiguous_of_empty _ (live_map_purge _)⟩
        rw [(free_calls_refs _ m).2]
        simp [held, live_map_purge]
    obtain ⟨hA1, hA2, hca⟩ := hA
    rcases hrest with ⟨_, rfl, rfl⟩ | ⟨i, o, ev1, hmiss, hprod, hfin⟩
    · omega
    · have hB := count_ref_zero ev1 (produce_no_ref H pka M f i o ev1 hprod) m
      rcases hfin with ⟨_, _, rfl, rfl⟩ | ⟨p, pk2, rfl, hfin⟩
      · rw [List.count_append, List.count_append]
        omega
      · have hfr := produce_frame H pka M f i p pk2 ev1 hprod
        rcases hfin with ⟨_, _, rfl, rfl⟩ | ⟨hi, rfl, ev2, hcache, rfl⟩
        · rw [List.count_append, List.count_append, hfr.1]
          omega
        · by_cases hp : r = 0
          · rcases cache_pkey_cases H pk2 i M r f pk1 ev2 hcache with
              ⟨_, rfl, rfl⟩ | ⟨hp0, _⟩
            · simp only [List.count_append, List.append_nil, hfr.1]
              omega
            · exact absurd hp hp0
          · obtain ⟨hC1, hC2⟩ := cache_pkey_refs H pk2 i M r f pk1 ev2 hp hcache m
            rcases cache_pkey_cases H pk2 i M r f pk1 ev2 hcache with
              ⟨hp0, _⟩ | ⟨_, hM, _, hslots, _⟩
            · exact absurd hp0 hp
            · obtain ⟨k, hk, _, hpass, hstop, _⟩ := lookup_loop_miss M f pka.pkeys 0 i hmiss
              have hk' : k = i := by omega
              subst hk'
              have hset := held_set pka.pkeys k ⟨M, r, f⟩ hca (by rw [← hfr.1]; exact hi) hM
                (fun s hs => (hpass s hs).1) hstop m
              rw [hslots, hfr.1, hset]
              simp only [List.count_append]
              rw [hC1, hC2]
              omega

/-- References taken and released by one returning call of
`evp_keymgmt_fromdata`, against the change in live slots. -/
theorem fromdata_balance (H : Heap) (pk : EVP_PKEY) (M : Ptr) (params : Params) (f : Int)
    (r : Ptr) (pk1 : EVP_PKEY) (ev : List Event) (hc : Contiguous pk.pkeys)
    (h : evp_keymgmt_fromdata H pk M params f = some ((r, pk1), ev)) (m : Ptr) :
    ev.count (Event.up_ref m) + held pk.pkeys m =
      ev.count (Event.free_ref m) + held pk1.pkeys m := by
  unfold evp_keymgmt_fromdata at h
  split at h
  · exact absurd h (by simp)
  · rename_i p ev0 himp
    have hev0 : ev0.count (Event.up_ref m) = 0 ∧ ev0.count (Event.free_ref m) = 0 := by
      apply count_ref_zero
      by_cases hf : f = 0
      · simp only [hf, ne_eq, not_true_eq_false, if_false, evp_keymgmt_importkey] at himp
        split at himp
        · simp at himp
        · split at himp
          · simp at himp
          · simp only [Option.some.injEq, Prod.mk.injEq] at himp
            rw [← himp.2]
            rfl
      · simp only [hf, ne_eq, not_false_eq_true, if_true, evp_keymgmt_importdomparams] at himp
        split at himp
        · simp at himp
        · split at himp
          · simp at himp
          · simp only [Option.some.injEq, Prod.mk.injEq] at himp
            rw [← himp.2]
            rfl
    split at h
    · rename_i pkc ev1 hclear
      obtain ⟨hc1, hc2, hc3⟩ := clear_balance H pk pkc ev1 hc hclear m
      have hempty := clear_pkey_cache_empty H pk pkc ev1 hc hclear
      cases hcache : evp_keymgmt_cache_pkey H pkc 0 M p f with
      | none => simp [hcache] at h
      | some res =>
        obtain ⟨pk3, ev2⟩ := res
        simp only [hcache, Option.some.injEq, Prod.mk.injEq] at h
        obtain ⟨⟨_, rfl⟩, rfl⟩ := h
        by_cases hp : p = 0
        · rcases cache_pkey_cases H pkc 0 M p f pk3 ev2 hcache with ⟨_, rfl, rfl⟩ | ⟨hp0, _⟩
          · simp only [List.count_append, List.count_nil]
            omega
          · exact absurd hp hp0
        · obtain ⟨hC1, hC2⟩ := cache_pkey_refs H pkc 0 M p f pk3 ev2 hp hcache m
          rcases cache_pkey_cases H pkc 0 M p f pk3 ev2 hcache with
            ⟨hp0, _⟩ | ⟨_, hM, hlen, hslots, _⟩
          · exact absurd hp0 hp
          · have hset := held_set pkc.pkeys 0 ⟨M, p, f⟩ (contiguous_of_empty _ hempty) hlen hM
              (by simp) (fun s hs => (live_nil_iff _).1 hempty s (List.getElem?_mem hs)) m
            rw [hslots, hset]
            simp only [List.count_append]
            rw [hC1, hC2]
            omega
    · exact absurd h (by simp)

/-- In every reachable state the references taken exceed those released by the
number of live slots that name the manager. -/
theorem reachable_balance (H : Heap) (pk : EVP_PKEY) (log : List Event)
    (h : Reachable H pk log) (m : Ptr) :
    log.count (Event.up_ref m) = log.count (Event.free_ref m) + held pk.pkeys m := by
  induction h with
  | init pk h =>
    have : live pk.pkeys = [] := (live_nil_iff _).2 (fun s hs => (h s hs).1)
    simp [held, this]
  | export_to_provider M f r pk1 ev hprev hcall ih =>
    have hd := export_balance H _ M f r pk1 ev (reachable_slotsInv H _ _ hprev).1 hcall m
    simp only [List.count_append]
    omega
  | fromdata M params f r pk1 ev hprev hcall ih =>
    have hd := fromdata_balance H _ M params f r pk1 ev (reachable_slotsInv H _ _ hprev).1 hcall m
    simp only [List.count_append]
    omega
  | clear pk1 ev hprev hcall ih =>
    obtain ⟨h1, h2, h3⟩ := clear_balance H _ pk1 ev (reachable_slotsInv H _ _ hprev).1 hcall m
    simp only [List.count_append]
    omega
  | legacy p a _ ih => exact ih

theorem reachableBool_reachable (H : Heap) (pk : EVP_PKEY) (log : List Event)
    (h : ReachableBool H pk log) : Reachable H pk log := by
  induction h with
  | init pk h => exact Reachable.init pk h
  | export_to_provider M f r pk1 ev _ _ hcall ih =>
    exact Reachable.export_to_provider M f r pk1 ev ih hcall
  | fromdata M params f r pk1 ev _ _ hcall ih =>
    exact Reachable.fromdata M params f r pk1 ev ih hcall
  | clear pk1 ev _ hcall ih => exact Reachable.clear pk1 ev ih hcall
  | legacy p a _ ih => exact Reachable.legacy p a ih

theorem boolFlags_set (l : List Slot) (k : Nat) (new : Slot) (h : BoolFlags l)
    (hn : new.domainparams = 0 ∨ new.domainparams = 1) : BoolFlags (l.set k new) := by
  intro s hs hne
  rcases List.mem_or_eq_of_mem_set hs with hs | rfl
  · exact h s hs hne
  · exact hn

theorem clear_loop_boolFlags (H : Heap) (l l1 : List Slot) (ev : List Event) (hp : BoolFlags l)
    (h : clear_loop H l = some (l1, ev)) : BoolFlags l1 := by
  induction l generalizing l1 ev with
  | nil =>
    simp [clear_loop] at h
    rw [h.1]
    exact hp
  | cons s rest ih =>
    by_cases hs : s.keymgmt = 0
    · simp [clear_loop, hs] at h
      rw [← h.1]
      exact hp
    · simp only [clear_loop, hs, if_false] at h
      split at h
      · exact absurd h (by simp)
      · split at h
        · exact absurd h (by simp)
        · rename_i rest1 ev2 hrest
          simp only [Option.some.injEq, Prod.mk.injEq] at h
          obtain ⟨rfl, _⟩ := h
          have hr := ih rest1 ev2 (fun t ht => hp t (List.mem_cons_of_mem _ ht)) hrest
          intro t ht hne
          rcases List.mem_cons.1 ht with rfl | ht
          · exact absurd rfl hne
          · exact hr t ht hne

theorem clear_pkey_cache_boolFlags (H : Heap) (pk pk1 : EVP_PKEY) (ev : List Event)
    (hp : BoolFlags pk.pkeys)
    (h : evp_keymgmt_clear_pkey_cache H (some pk) = some (some pk1, ev)) :
    BoolFlags pk1.pkeys := by
  unfold evp_keymgmt_clear_pkey_cache at h
  cases hl : clear_loop H pk.pkeys with
  | none => simp [hl] at h
  | some res =>
    obtain ⟨slots, ev1⟩ := res
    simp only [hl, Option.some.injEq, Prod.mk.injEq] at h
    obtain ⟨rfl, _⟩ := h
    exact clear_loop_boolFlags H pk.pkeys slots ev1 hp hl

theorem cache_pkey_boolFlags (H : Heap) (pk : EVP_PKEY) (i : Nat) (M p : Ptr) (f : Int)
    (pk3 : EVP_PKEY) (ev2 : List Event) (hp : BoolFlags pk.pkeys) (hf : f = 0 ∨ f = 1)
    (h : evp_keymgmt_cache_pkey H pk i M p f = some (pk3, ev2)) : BoolFlags pk3.pkeys := by
  rcases cache_pkey_cases H pk i M p f pk3 ev2 h with ⟨_, rfl, _⟩ | ⟨_, _, _, hslots, _⟩
  · exact hp
  · rw [hslots]
    exact boolFlags_set _ _ _ hp hf

theorem export_boolFlags (H : Heap) (pk : EVP_PKEY) (M : Ptr) (f : Int) (r : Ptr)
    (pk1 : EVP_PKEY) (ev : List Event)
    (h : evp_keymgmt_export_to_provider H pk M f = some ((r, pk1), ev))
    (hf : f = 0 ∨ f = 1) (hp : BoolFlags pk.pkeys) : BoolFlags pk1.pkeys := by
  rcases export_cases H pk M f r pk1 ev h with ⟨_, rfl, _⟩ | ⟨pka, ev0, hst, hrest⟩
  · exact hp
  · have hpa : BoolFlags pka.pkeys := by
      rcases invalidate_stale_cases H pk _ _ hst with ⟨hc, _⟩ | ⟨hc, _⟩ | ⟨_, slots, hcl, hc⟩
      · cases hc
      · cases hc
        exact hp
      · cases hc
        exact clear_loop_boolFlags H pk.pkeys slots ev0 hp hcl
    rcases hrest with ⟨_, rfl, _⟩ | ⟨i, o, ev1, _, hprod, hfin⟩
    · exact hpa
    · rcases hfin with ⟨_, _, rfl, _⟩ | ⟨p, pk2, rfl, hfin⟩
      · exact hpa
      · have hfr := produce_frame H pka M f i p pk2 ev1 hprod
        have hp2 : BoolFlags pk2.pkeys := by
          rw [hfr.1]
          exact hpa
        rcases hfin with ⟨_, _, rfl, _⟩ | ⟨_, rfl, ev2, hcache, _⟩
        · exact hp2
        · exact cache_pkey_boolFlags H pk2 i M r f pk1 ev2 hp2 hf hcache

theorem fromdata_boolFlags (H : Heap) (pk : EVP_PKEY) (M : Ptr) (params : Params) (f : Int)
    (r : Ptr) (pk1 : EVP_PKEY) (ev : List Event)
    (h : evp_keymgmt_fromdata H pk M params f = some ((r, pk1), ev))
    (hf : f = 0 ∨ f = 1) (hp : BoolFlags pk.pkeys) : BoolFlags pk1.pkeys := by
  unfold evp_keymgmt_fromdata at h
  split at h
  · exact absurd h (by simp)
  · rename_i p ev0 _
    split at h
    · rename_i pkc ev1 hclear
      have hpc := clear_pkey_cache_boolFlags H pk pkc ev1 hp hclear
      cases hcache : evp_keymgmt_cache_pkey H pkc 0 M p f with
      | none => simp [hcache] at h
      | some res =>
        obtain ⟨pk3, ev2⟩ := res
        simp only [hcache, Option.some.injEq, Prod.mk.injEq] at h
        obtain ⟨⟨_, rfl⟩, _⟩ := h
        exact cache_pkey_boolFlags H pkc 0 M p f pk3 ev2 hpc hf hcache
    · exact absurd h (by simp)

theorem reachableBool_boolFlags (H : Heap) (pk : EVP_PKEY) (log : List Event)
    (h : ReachableBool H pk log) : BoolFlags pk.pkeys := by
  induction h with
  | init pk h =>
    intro s hs hne
    exact absurd (h s hs).1 hne
  | export_to_provider M f r pk1 ev _ hf hcall ih =>
    exact export_boolFlags H _ M f r pk1 ev hcall hf ih
  | fromdata M params f r pk1 ev _ hf hcall ih =>
    exact fromdata_boolFlags H _ M params f r pk1 ev hcall hf ih
  | clear pk1 ev _ hcall ih => exact clear_pkey_cache_boolFlags H _ pk1 ev ih hcall
  | legacy p a _ ih => exact ih

/-! ## The claims -/

/-- C1 fails on the code. The key has no legacy representation and caches keys
of the managers at 1 and 2; the request (3, 0) misses.  The export of slot 0
returns failure (the sink had stored the import result 75 during it); the export
of slot 1 returns success and never calls the sink, so it leaves the sink's
argument as it found it.  The call nevertheless returns 75 and adds the slot
(3, 75, 0): line 127 reads the result that slot 0 left behind. -/
theorem phantom_success_from_stale_result :
    evp_keymgmt_exportkey heap_stale_result 1 11 (try_import heap_stale_result)
        { provctx := 3, importfn := some ImportFn.evp_keymgmt_importkey, provdata := 0 }
      = some ((0, { provctx := 3, importfn := some ImportFn.evp_keymgmt_importkey,
                    provdata := 75 }),
              [Event.exportkey 1 11, Event.importkey 3 [("n", 5)]]) ∧
    evp_keymgmt_exportkey heap_stale_result 2 22 (try_import heap_stale_result)
        { provctx := 3, importfn := some ImportFn.evp_keymgmt_importkey, provdata := 75 }
      = some ((1, { provctx := 3, importfn := some ImportFn.evp_keymgmt_importkey,
                    provdata := 75 }),
              [Event.exportkey 2 22]) ∧
    (evp_keymgmt_export_to_provider heap_stale_result key_bridge 3 0).map
        (fun r => (r.1.1, r.1.2.pkeys, r.2))
      = some (75, [⟨1, 11, 0⟩, ⟨2, 22, 0⟩, ⟨3, 75, 0⟩, empty_slot],
              [Event.exportkey 1 11, Event.importkey 3 [("n", 5)], Event.exportkey 2 22,
               Event.up_ref 3]) := by
  decide

/-- C2, as stated, fails: on a key whose legacy counter has moved, with a cached
representation and a failing legacy export, the call returns `NULL` and yet
the slot has been purged and the summary reset. -/
theorem export_null_mutates_stale_cache :
    key_stale_failing.pkeys = [⟨1, 11, 0⟩, empty_slot] ∧
    key_stale_failing.cache = { size := 32, bits := 256, security_bits := 128 } ∧
    (evp_keymgmt_export_to_provider heap_legacy key_stale_failing 3 0).map
        (fun r => (r.1.1, r.1.2.pkeys, r.1.2.cache, r.2)) =
      some (0, [empty_slot, empty_slot], { size := 0, bits := 0, security_bits := 0 },
            [Event.freekey 1 11, Event.free_ref 1, Event.export_to 3 0]) := by
  decide

/-- C2, amended. When `evp_keymgmt_export_to_provider` returns `NULL`: if the
staleness test did not fire, every slot and the summary are what they were
before the call; if it fired, they are what `evp_keymgmt_clear_pkey_cache`
made of them at the start of the call. -/
theorem export_null_cache (H : Heap) (pk : EVP_PKEY) (M : Ptr) (f : Int) (pk' : EVP_PKEY)
    (ev : List Event) (h : evp_keymgmt_export_to_provider H pk M f = some ((0, pk'), ev)) :
    (¬ stale pk → pk'.pkeys = pk.pkeys ∧ pk'.cache = pk.cache) ∧
    (stale pk → ∃ pkc evc, evp_keymgmt_clear_pkey_cache H (some pk) = some (some pkc, evc) ∧
        pk'.pkeys = pkc.pkeys ∧ pk'.cache = pkc.cache) := by
  rcases export_null_frame H pk M f pk' ev h with ⟨h1, h2, hst⟩ | ⟨pk1, ev0, hst, h1, h2⟩
  · refine ⟨fun _ => ⟨h1, h2⟩, fun hs => ?_⟩
    rcases invalidate_stale_cases H pk _ _ hst with ⟨_, _, _, hd⟩ | ⟨hc, _⟩ | ⟨_, _, _, hc⟩
    · obtain ⟨_, c, hc, _⟩ := hs
      rw [hd] at hc
      cases hc
    · cases hc
    · cases hc
  · rcases invalidate_stale_cases H pk _ _ hst with ⟨hc, _⟩ | ⟨hc, _, hns, _⟩ | ⟨hs, slots, hcl, hc⟩
    · cases hc
    · cases hc
      exact ⟨fun _ => ⟨h1, h2⟩, fun hs => absurd hs hns⟩
    · cases hc
      refine ⟨fun hns => absurd hs hns, fun _ => ⟨_, ev0, ?_, h1, h2⟩⟩
      simp [evp_keymgmt_clear_pkey_cache, hcl]

/-- The amended C2 at a stale key: the call returns `NULL` and the cache is the
cleared one. -/
theorem export_null_cache_witness :
    evp_keymgmt_export_to_provider heap_legacy key_stale_failing 3 0
      = some ((0, key_stale_failing_after),
              [Event.freekey 1 11, Event.free_ref 1, Event.export_to 3 0]) ∧
    stale key_stale_failing ∧
    ∃ pkc evc, evp_keymgmt_clear_pkey_cache heap_legacy (some key_stale_failing)
        = some (some pkc, evc) ∧
      key_stale_failing_after.pkeys = pkc.pkeys ∧ key_stale_failing_after.cache = pkc.cache :=
  ⟨rfl, ⟨by decide, 1, rfl, by decide⟩,
    (export_null_cache heap_legacy key_stale_failing 3 0 key_stale_failing_after
      [Event.freekey 1 11, Event.free_ref 1, Event.export_to 3 0] rfl).2
      ⟨by decide, 1, rfl, by decide⟩⟩

/-- C3. Cache-hit idempotence: when `evp_keymgmt_export_to_provider` returns a
non-null representation, the same call repeated on the key as the first call
left it (the legacy key and its counter untouched in between) returns the same
handle, makes no export, import, free or reference-count call, and leaves the
key, hence every slot and the number of live slots, exactly as it was. -/
theorem export_to_provider_idempotent (H : Heap) (pk : EVP_PKEY) (M : Ptr) (f : Int)
    (r : Ptr) (pk1 : EVP_PKEY) (ev : List Event)
    (h : evp_keymgmt_export_to_provider H pk M f = some ((r, pk1), ev)) (hr : r ≠ 0) :
    evp_keymgmt_export_to_provider H pk1 M f = some ((r, pk1), []) := by
  rcases export_cases H pk M f r pk1 ev h with ⟨h0, _⟩ | ⟨pka, ev0, hst, hrest⟩
  · exact absurd h0 hr
  · rcases hrest with ⟨hhit, rfl, rfl⟩ | ⟨i, o, ev1, hmiss, hprod, hfin⟩
    · -- the first call was a hit
      rcases invalidate_stale_cases H pk _ _ hst with ⟨hc, _⟩ | ⟨hc, _, _, hfresh⟩ | ⟨_, slots, hcl, hc⟩
      · cases hc
      · cases hc
        have hst2 : invalidate_stale H pk = some (some pk, []) := by
          by_cases hp : pk.pkey_ptr = 0
          · exact invalidate_stale_fresh H pk (Or.inl hp)
          · exact invalidate_stale_fresh H pk (Or.inr (hfresh hp))
        simp [evp_keymgmt_export_to_provider, hst2, hhit]
      · cases hc
        have := lookup_after_clear H M f pk.pkeys slots _ hcl
        simp only at hhit
        rw [this] at hhit
        cases hhit
    · rcases hfin with ⟨_, h0, _⟩ | ⟨p, pk2, rfl, hfin⟩
      · exact absurd h0 hr
      · rcases hfin with ⟨_, h0, _⟩ | ⟨hi, rfl, ev2, hcache, _⟩
        · exact absurd h0 hr
        · rcases cache_pkey_cases H pk2 i M r f pk1 ev2 hcache with ⟨h0, _⟩ | ⟨_, hM, _, hslots, hptr, hameth, hcopy, _⟩
          · exact absurd h0 hr
          · -- the key after the first call is not stale
            have hfresh : pk1.pkey_ptr = 0 ∨ pk1.ameth.dirty_cnt = some pk1.dirty_cnt_copy := by
              rcases produce_cases H pka M f i _ ev1 hprod with ⟨hc, _⟩ | ⟨_, g, _, _, hg⟩ | ⟨hp0, q, hq, _⟩
              · cases hc
              · rcases hg with ⟨hg0, hc⟩ | ⟨_, cnt, hcnt, hc⟩
                · cases hc
                  exact absurd rfl hr
                · cases hc
                  right
                  rw [hameth, hcopy]
                  exact hcnt
              · cases hq
                left
                rw [hptr]
                exact hp0
            have hsame : pk2.pkeys = pka.pkeys := by
              rcases produce_cases H pka M f i _ ev1 hprod with ⟨hc, _⟩ | ⟨_, g, _, _, hg⟩ | ⟨hp0, q, hq, _⟩
              · cases hc
              · rcases hg with ⟨_, hc⟩ | ⟨_, cnt, _, hc⟩ <;> cases hc <;> rfl
              · cases hq
                rfl
            obtain ⟨k, hk, _, _, _, hset⟩ := lookup_loop_miss M f pka.pkeys 0 i hmiss
            have hk' : k = i := by omega
            subst hk'
            have hhit := hset hM (by rw [← hsame]; exact hi) r
            rw [← hsame, ← hslots] at hhit
            simp [evp_keymgmt_export_to_provider, invalidate_stale_fresh H pk1 hfresh, hhit]

/-- C3 at a direct export (the first call exports and caches 51, the repeated
call returns 51 from the cache) and at a bridged one (handle 99). -/
theorem export_to_provider_idempotent_witness :
    (evp_keymgmt_export_to_provider heap_two key_legacy_empty 3 1
      = some ((51, key_legacy_flag1),
              [Event.export_to 3 1, Event.up_ref 3, Event.get_domparam_params 3 51]) ∧
     evp_keymgmt_export_to_provider heap_two key_legacy_flag1 3 1
      = some ((51, key_legacy_flag1), [])) ∧
    (evp_keymgmt_export_to_provider heap_bridge_aliased key_bridge 3 0
      = some ((99, key_bridge_after),
              [Event.exportkey 1 11, Event.importkey 300 [("n", 5)], Event.up_ref 3]) ∧
     evp_keymgmt_export_to_provider heap_bridge_aliased key_bridge_after 3 0
      = some ((99, key_bridge_after), [])) :=
  ⟨⟨rfl, export_to_provider_idempotent heap_two key_legacy_empty 3 1 51 key_legacy_flag1
      [Event.export_to 3 1, Event.up_ref 3, Event.get_domparam_params 3 51] rfl (by decide)⟩,
   ⟨rfl, export_to_provider_idempotent heap_bridge_aliased key_bridge 3 0 99 key_bridge_after
      [Event.exportkey 1 11, Event.importkey 300 [("n", 5)], Event.up_ref 3] rfl
      (by decide)⟩⟩

/-- C4. Staleness invalidation: for a key with a legacy representation whose
counter is exposed and differs from `dirty_cnt_copy`, whose live slots form a
run from index 0 (the invariant of the data model, which holds in every state
that calls of this file reach from an empty cache: `reachable_slotsInv`) and
can be freed: the call first issues the free call and reference release of
every live slot (`free_calls`), only then looks up and exports; what it returns
is `NULL` or the freshly exported representation, never a cached one;
afterwards no slot is live (nothing was exported) or the only live slot is the
new entry at index 0. -/
theorem stale_purge (H : Heap) (pk : EVP_PKEY) (M : Ptr) (f : Int)
    (hst : stale pk) (hc : Contiguous pk.pkeys)
    (hf : ∀ s ∈ pk.pkeys, s.keymgmt ≠ 0 → Freeable H s)
    (hM : legacy_export pk M f ≠ 0 → (deref H M).isSome = true) :
    ∃ r pk1 ev1,
      evp_keymgmt_export_to_provider H pk M f = some ((r, pk1), free_calls pk.pkeys ++ ev1) ∧
      (∀ e ∈ ev1, e = Event.export_to M f ∨ e = Event.up_ref M ∨
          e = Event.get_key_params M r ∨ e = Event.get_domparam_params M r) ∧
      r = (if pk.pkeys = [] then 0 else legacy_export pk M f) ∧
      ((r = 0 ∧ live pk1.pkeys = []) ∨
       (r ≠ 0 ∧ live pk1.pkeys = [⟨M, r, f⟩] ∧ pk1.pkeys.head? = some ⟨M, r, f⟩)) := by
  obtain ⟨hp, cnt, hcnt, hne⟩ := hst
  have hcl := clear_loop_contiguous H pk.pkeys hc hf
  have h1 : invalidate_stale H pk =
      some (some { pk with
                   pkeys := pk.pkeys.map purge
                   cache := { size := 0, bits := 0, security_bits := 0 } },
            free_calls pk.pkeys) := by
    simp [invalidate_stale, hp, hcnt, hne, evp_keymgmt_clear_pkey_cache, hcl]
  have hlive : live (pk.pkeys.map purge) = [] := live_map_purge _
  have h2 : lookup_loop M f (pk.pkeys.map purge) 0 = .miss 0 := by
    apply lookup_loop_head_empty
    intro s hs
    exact (live_nil_iff _).1 hlive s (List.mem_of_mem_head? hs)
  cases he : pk.ameth.export_to with
  | none =>
    refine ⟨0, { pk with
                 pkeys := pk.pkeys.map purge
                 cache := { size := 0, bits := 0, security_bits := 0 } },
      [], ?_, by simp, by simp [legacy_export, he], Or.inl ⟨rfl, hlive⟩⟩
    simp [evp_keymgmt_export_to_provider, h1, h2, produce, hp, he]
  | some g =>
    by_cases hg : g M f = 0
    · refine ⟨0, { pk with
                   pkeys := pk.pkeys.map purge
                   cache := { size := 0, bits := 0, security_bits := 0 } },
        [Event.export_to M f], ?_, by simp, by simp [legacy_export, he, hg], Or.inl ⟨rfl, hlive⟩⟩
      by_cases hlen : 0 < pk.pkeys.length
      · simp [evp_keymgmt_export_to_provider, h1, h2, produce, hp, he, hg, ossl_assert, hlen,
          evp_keymgmt_cache_pkey]
      · simp [evp_keymgmt_export_to_provider, h1, h2, produce, hp, he, hg, ossl_assert, hlen]
    · by_cases hnil : pk.pkeys = []
      · refine ⟨0, { pk with
                     pkeys := pk.pkeys.map purge
                     cache := { size := 0, bits := 0, security_bits := 0 }
                     dirty_cnt_copy := cnt },
          [Event.export_to M f], ?_, by simp, by simp [hnil], Or.inl ⟨rfl, hlive⟩⟩
        have hlen : ¬ 0 < pk.pkeys.length := by simp [hnil]
        simp [evp_keymgmt_export_to_provider, h1, h2, produce, hp, he, hg, ossl_assert, hlen,
          hcnt]
      · have hMs := hM (by simp [legacy_export, he, hg])
        obtain ⟨m, hm⟩ := Option.isSome_iff_exists.1 hMs
        have hM0 := deref_ne_zero H M m hm
        have hlen : 0 < (pk.pkeys.map purge).length := by
          rw [List.length_map]
          exact List.length_pos.2 hnil
        obtain ⟨pk3, ev2, hcache, hslots, hev2⟩ := cache_pkey_zero_slots H
          { pk with
            pkeys := pk.pkeys.map purge
            cache := { size := 0, bits := 0, security_bits := 0 }
            dirty_cnt_copy := cnt } M (g M f) f m hg hm hlen
        have hne' : pk.pkeys.map purge ≠ [] := by
          intro h0
          rw [h0] at hlen
          exact absurd hlen (by simp)
        have hl := live_set_zero_of_empty (pk.pkeys.map purge) ⟨M, g M f, f⟩ hM0 hlive hne'
        refine ⟨g M f, pk3, Event.export_to M f :: ev2, ?_, ?_,
          by simp [hnil, legacy_export, he], Or.inr ⟨hg, ?_, ?_⟩⟩
        · simp only [evp_keymgmt_export_to_provider, h1, h2, produce, hp, he, hg, hcnt,
            ossl_assert, ne_eq, not_false_eq_true, if_true]
          simp only at hlen
          simp only [hlen, decide_True, Bool.not_true, Bool.false_eq_true, if_false, hcache]
          simp
        · intro e he'
          rcases List.mem_cons.1 he' with rfl | he'
          · exact Or.inl rfl
          · rcases hev2 e he' with h | h | h
            · exact Or.inr (Or.inl h)
            · exact Or.inr (Or.inr (Or.inl h))
            · exact Or.inr (Or.inr (Or.inr h))
        · rw [hslots]
          exact hl.1
        · rw [hslots]
          exact hl.2

/-- C4 at a reachable stale key with one cached representation (`key_mutated`,
reached by one served request followed by a change of the legacy key): the
cached key is freed first, then the fresh export 77 becomes the only live
slot. -/
theorem stale_purge_witness :
    (∃ log, Reachable heap_legacy key_mutated log) ∧
    (evp_keymgmt_export_to_provider heap_legacy key_mutated 3 0).map
        (fun r => (r.1.1, r.1.2.pkeys, r.2))
      = some (77, [⟨3, 77, 0⟩, empty_slot],
              [Event.freekey 1 11, Event.free_ref 1, Event.export_to 3 0, Event.up_ref 3]) ∧
    ∃ r pk1 ev1,
      evp_keymgmt_export_to_provider heap_legacy key_mutated 3 0
        = some ((r, pk1), free_calls key_mutated.pkeys ++ ev1) ∧
      (∀ e ∈ ev1, e = Event.export_to 3 0 ∨ e = Event.up_ref 3 ∨
          e = Event.get_key_params 3 r ∨ e = Event.get_domparam_params 3 r) ∧
      r = (if key_mutated.pkeys = [] then 0 else legacy_export key_mutated 3 0) ∧
      ((r = 0 ∧ live pk1.pkeys = []) ∨
       (r ≠ 0 ∧ live pk1.pkeys = [⟨3, r, 0⟩] ∧ pk1.pkeys.head? = some ⟨3, r, 0⟩)) := by
  have hr : Reachable heap_legacy key_mutated [Event.export_to 1 0, Event.up_ref 1] :=
    Reachable.legacy 1000 { dirty_cnt := some 1, export_to := some (fun _ _ => 77) }
      (@Reachable.export_to_provider heap_legacy key_fresh [] 1 0 11
        { key_fresh with pkeys := [⟨1, 11, 0⟩, empty_slot] }
        [Event.export_to 1 0, Event.up_ref 1]
        (Reachable.init key_fresh (by decide)) rfl)
  exact ⟨⟨_, hr⟩, by decide,
    stale_purge heap_legacy key_mutated 3 0 ⟨by decide, 1, rfl, by decide⟩
      (reachable_slotsInv heap_legacy key_mutated _ hr).1
      (by
        intro s hs hne
        simp only [key_mutated, empty_slot, List.mem_cons] at hs
        rcases hs with rfl | rfl | hs
        · exact ⟨_, rfl, rfl⟩
        · exact absurd rfl hne
        · simp at hs)
      (fun _ => rfl)⟩

/-- C5 fails on the code. Slots 0 and 1 both export and the requested manager
(address 3) imports either list (handles 75 and 76), but the call has no
defined result: `try_import` hands the manager's provider context (address
300) to the import forwarder, which dereferences it as a descriptor. -/
theorem bridge_from_first_slot_undefined :
    evp_keymgmt_importkey heap_bridge 3 [("n", 5)] = some (75, [Event.importkey 3 [("n", 5)]]) ∧
    evp_keymgmt_importkey heap_bridge 3 [("n", 6)] = some (76, [Event.importkey 3 [("n", 6)]]) ∧
    try_import heap_bridge [("n", 5)]
        { provctx := 300, importfn := some ImportFn.evp_keymgmt_importkey, provdata := 0 }
      = none ∧
    (evp_keymgmt_export_to_provider heap_bridge key_bridge 3 0).isSome = false := by
  decide

/-- C6 fails on the code. The sink hands the requested manager's provider
context (address 300) to the import forwarder in the place of the manager
(address 3).  When no descriptor lies at 300 the sink has no defined result.
When one does, the sink calls the import of that descriptor (handle 99, event
`importkey 300`), not the import of the requested manager (handle 75), and the
call returns and caches 99. -/
theorem sink_imports_through_provider_context :
    try_import heap_bridge [("n", 5)]
        { provctx := (mgr_importer 300).provctx,
          importfn := some ImportFn.evp_keymgmt_importkey, provdata := 0 }
      = none ∧
    evp_keymgmt_importkey heap_bridge_aliased 3 [("n", 5)]
      = some (75, [Event.importkey 3 [("n", 5)]]) ∧
    try_import heap_bridge_aliased [("n", 5)]
        { provctx := 300, importfn := some ImportFn.evp_keymgmt_importkey, provdata := 0 }
      = some ((1, { provctx := 300, importfn := some ImportFn.evp_keymgmt_importkey,
                    provdata := 99 }),
              [Event.importkey 300 [("n", 5)]]) ∧
    (evp_keymgmt_export_to_provider heap_bridge_aliased key_bridge 3 0).map
        (fun r => (r.1.1, r.1.2.pkeys, r.2))
      = some (99, [⟨1, 11, 0⟩, ⟨2, 22, 0⟩, ⟨3, 99, 0⟩, empty_slot],
              [Event.exportkey 1 11, Event.importkey 300 [("n", 5)], Event.up_ref 3]) := by
  decide

/-- C7. Clear releases everything: for a key whose live slots form a run from
index 0 (each held through a descriptor that has the free operation its flag
selects), `evp_keymgmt_clear_pkey_cache` returns with no live slot and a zero
summary, and the external calls it made are exactly `free_calls`: per live
slot one free call through the slot's own manager, of the kind the slot's flag
selects, followed by one release of that manager's reference.  Counted per
manager and representation, the free calls of each kind and the releases are as
many as the slots that held them. -/
theorem clear_releases_everything (H : Heap) (pk : EVP_PKEY) (hc : Contiguous pk.pkeys)
    (hf : ∀ s ∈ pk.pkeys, s.keymgmt ≠ 0 → Freeable H s) :
    ∃ pk1, evp_keymgmt_clear_pkey_cache H (some pk) = some (some pk1, free_calls pk.pkeys) ∧
      live pk1.pkeys = [] ∧ pk1.pkeys.length = pk.pkeys.length ∧
      pk1.cache = { size := 0, bits := 0, security_bits := 0 } ∧
      (∀ m p, (free_calls pk.pkeys).count (Event.freekey m p) =
          (live pk.pkeys).countP
            (fun s => decide (s.keymgmt = m ∧ s.provdata = p ∧ s.domainparams = 0))) ∧
      (∀ m p, (free_calls pk.pkeys).count (Event.freedomparams m p) =
          (live pk.pkeys).countP
            (fun s => decide (s.keymgmt = m ∧ s.provdata = p ∧ s.domainparams ≠ 0))) ∧
      (∀ m, (free_calls pk.pkeys).count (Event.free_ref m) =
          (live pk.pkeys).countP (fun s => decide (s.keymgmt = m))) := by
  refine ⟨{ pk with
            pkeys := pk.pkeys.map purge
            cache := { size := 0, bits := 0, security_bits := 0 } }, ?_, live_map_purge _,
    by simp, rfl, fun m p => (free_calls_count _ m p).1, fun m p => (free_calls_count _ m p).2.1,
    fun m => (free_calls_count _ m 0).2.2⟩
  simp [evp_keymgmt_clear_pkey_cache, clear_loop_contiguous H pk.pkeys hc hf]

/-- C7 at a key that caches one key and one set of domain parameters. -/
theorem clear_releases_everything_witness :
    ∃ pk1, evp_keymgmt_clear_pkey_cache heap_two (some key_two)
        = some (some pk1, [Event.freekey 1 11, Event.free_ref 1,
                           Event.freedomparams 2 22, Event.free_ref 2]) ∧
      live pk1.pkeys = [] ∧ pk1.pkeys.length = 3 ∧
      pk1.cache = { size := 0, bits := 0, security_bits := 0 } := by
  obtain ⟨pk1, h1, h2, h3, h4, _⟩ := clear_releases_everything heap_two key_two
    (by simp [Contiguous, key_two, empty_slot, live])
    (by
      intro s hs hne
      simp only [key_two, empty_slot, List.mem_cons] at hs
      rcases hs with rfl | rfl | rfl | hs
      · exact ⟨_, rfl, rfl⟩
      · exact ⟨_, rfl, rfl⟩
      · exact absurd rfl hne
      · simp at hs)
  exact ⟨pk1, h1, h2, h3, h4⟩

/-- C8. Primary summary binding: for a non-null representation and a valid
manager, `evp_keymgmt_cache_pkey` at index 0 returns and sets the summary to
exactly the (size, bits, security bits) that the manager's get-params operation
reports when that operation succeeds, and leaves the summary as it was when it
fails; at any other index it leaves the summary as it was whenever it returns,
and it returns when the index lies within the array. -/
theorem cache_pkey_summary (H : Heap) (pk : EVP_PKEY) (M p : Ptr) (f : Int) (m : EVP_KEYMGMT)
    (hp : p ≠ 0) (hm : deref H M = some m) :
    (0 < pk.pkeys.length →
      ∃ pk1 ev, evp_keymgmt_cache_pkey H pk 0 M p f = some (pk1, ev) ∧
        ((reported m p f).1 ≠ 0 → pk1.cache = (reported m p f).2) ∧
        ((reported m p f).1 = 0 → pk1.cache = pk.cache)) ∧
    (∀ index, index ≠ 0 →
      (∀ pk1 ev, evp_keymgmt_cache_pkey H pk index M p f = some (pk1, ev) →
        pk1.cache = pk.cache) ∧
      (index < pk.pkeys.length →
        ∃ pk1 ev, evp_keymgmt_cache_pkey H pk index M p f = some (pk1, ev))) := by
  constructor
  · intro hlen
    obtain ⟨ev, h, _⟩ := cache_pkey_zero H pk M p f m hp hm hlen
    refine ⟨_, ev, h, ?_, ?_⟩
    · intro hok
      simp [hok]
    · intro hok
      simp [hok]
  · intro index h0
    constructor
    · intro pk1 ev h
      rcases cache_pkey_cases H pk index M p f pk1 ev h with ⟨hp0, _⟩ | ⟨_, _, _, _, _, _, _, hc⟩
      · exact absurd hp0 hp
      · exact (hc h0).1
    · intro hlt
      simp [evp_keymgmt_cache_pkey, hp, EVP_KEYMGMT_up_ref, hm, hlt, h0]

/-- C8 at the manager of address 3 in `heap_two`, which reports 256 bits, 128
security bits and size 32 for keys and fails for domain parameters: the key
insertion at slot 0 makes exactly these values the summary, the
domain-parameter insertion at slot 0 and the insertion at slot 1 leave the
summary (4, 5, 6) alone. -/
theorem cache_pkey_summary_witness :
    ((evp_keymgmt_cache_pkey heap_two key_two 0 3 33 0).map (fun r => r.1.cache)
        = some { size := 32, bits := 256, security_bits := 128 } ∧
     (evp_keymgmt_cache_pkey heap_two key_two 0 3 33 1).map (fun r => r.1.cache)
        = some { size := 4, bits := 5, security_bits := 6 } ∧
     (evp_keymgmt_cache_pkey heap_two key_two 1 3 33 0).map (fun r => r.1.cache)
        = some { size := 4, bits := 5, security_bits := 6 }) ∧
    ((0 < key_two.pkeys.length →
      ∃ pk1 ev, evp_keymgmt_cache_pkey heap_two key_two 0 3 33 0 = some (pk1, ev) ∧
        ((reported mgr_reporting 33 0).1 ≠ 0 → pk1.cache = (reported mgr_reporting 33 0).2) ∧
        ((reported mgr_reporting 33 0).1 = 0 → pk1.cache = key_two.cache)) ∧
     (∀ index, index ≠ 0 →
      (∀ pk1 ev, evp_keymgmt_cache_pkey heap_two key_two index 3 33 0 = some (pk1, ev) →
        pk1.cache = key_two.cache) ∧
      (index < key_two.pkeys.length →
        ∃ pk1 ev, evp_keymgmt_cache_pkey heap_two key_two index 3 33 0 = some (pk1, ev)))) :=
  ⟨⟨by decide, by decide, by decide⟩,
   cache_pkey_summary heap_two key_two 3 33 0 mgr_reporting (by decide) rfl⟩

/-- C9, as stated, fails: on a key all of whose slots are live and none of which
matches the request, but whose legacy counter has moved, the call purges the
ten slots, succeeds and stores the new representation over slot 0. -/
theorem full_cache_stale_key_succeeds :
    (∀ s ∈ key_full_stale.pkeys, s.keymgmt ≠ 0 ∧ ¬ (3 = s.keymgmt ∧ (0 : Int) = s.domainparams)) ∧
    (evp_keymgmt_export_to_provider heap_ten key_full_stale 3 0).map
        (fun r => (r.1.1, r.1.2.pkeys)) =
      some (77, ⟨3, 77, 0⟩ :: List.replicate 9 empty_slot) := by
  decide

/-- C9, amended. Capacity guard: for a key all of whose slots are live, none of
which matches the request, and on which the staleness test does not fire, every
call that returns reports `NULL` and leaves the key, hence every slot, as it
was.  With a legacy representation the call always returns.  Without one it
returns exactly when the bridge loop over the slots does (a backend call of the
loop may be undefined), and then its external calls are those of the loop. -/
theorem capacity_guard (H : Heap) (pk : EVP_PKEY) (M : Ptr) (f : Int)
    (hfull : ∀ s ∈ pk.pkeys, s.keymgmt ≠ 0)
    (hmiss : ∀ s ∈ pk.pkeys, ¬ (M = s.keymgmt ∧ f = s.domainparams))
    (hns : ¬ stale pk) :
    (∀ r pk1 ev, evp_keymgmt_export_to_provider H pk M f = some ((r, pk1), ev) →
        r = 0 ∧ pk1 = pk) ∧
    (pk.pkey_ptr ≠ 0 →
      ∃ ev, evp_keymgmt_export_to_provider H pk M f = some ((0, pk), ev)) ∧
    (pk.pkey_ptr = 0 →
      evp_keymgmt_export_to_provider H pk M f =
        (bridge_loop H M f pk.pkeys
          { provctx := 0, importfn := some (importfn_for f), provdata := 0 }).map
          (fun r => ((0, pk), r.2))) := by
  have hlook := lookup_loop_full M f pk.pkeys 0 hfull hmiss
  rw [Nat.zero_add] at hlook
  have hB : pk.pkey_ptr = 0 →
      evp_keymgmt_export_to_provider H pk M f =
        (bridge_loop H M f pk.pkeys
          { provctx := 0, importfn := some (importfn_for f), provdata := 0 }).map
          (fun r => ((0, pk), r.2)) := by
    intro hp
    cases hbr : bridge_loop H M f pk.pkeys
        { provctx := 0, importfn := some (importfn_for f), provdata := 0 } with
    | none =>
      have hprod : produce H pk M f pk.pkeys.length = none := by
        unfold produce
        simp only [hp, ne_eq, not_true_eq_false, if_false, List.take_length]
        rw [if_neg (by simp)]
        unfold importfn_for at hbr
        rw [hbr]
      simp [evp_keymgmt_export_to_provider, invalidate_stale_fresh H pk (Or.inl hp), hlook,
        hprod]
    | some res =>
      obtain ⟨p, ev⟩ := res
      have hprod : produce H pk M f pk.pkeys.length = some (some (p, pk), ev) := by
        unfold produce
        simp only [hp, ne_eq, not_true_eq_false, if_false, List.take_length]
        rw [if_neg (by simp)]
        unfold importfn_for at hbr
        rw [hbr]
      simp [evp_keymgmt_export_to_provider, invalidate_stale_fresh H pk (Or.inl hp), hlook,
        hprod, ossl_assert]
  have hA : pk.pkey_ptr ≠ 0 →
      ∃ ev, evp_keymgmt_export_to_provider H pk M f = some ((0, pk), ev) := by
    intro hp
    cases hd : pk.ameth.dirty_cnt with
    | none =>
      exact ⟨[], by simp [evp_keymgmt_export_to_provider, invalidate_stale, hp, hd]⟩
    | some cnt =>
      have hcnt : cnt = pk.dirty_cnt_copy := by
        by_contra hne
        exact hns ⟨hp, cnt, hd, hne⟩
      subst hcnt
      have hst := invalidate_stale_fresh H pk (Or.inr hd)
      have hpk : ({ pk with dirty_cnt_copy := pk.dirty_cnt_copy } : EVP_PKEY) = pk := by
        cases pk
        rfl
      cases he : pk.ameth.export_to with
      | none =>
        exact ⟨[], by simp [evp_keymgmt_export_to_provider, hst, hlook, produce, hp, he]⟩
      | some g =>
        by_cases hg : g M f = 0
        · exact ⟨[Event.export_to M f], by
            simp [evp_keymgmt_export_to_provider, hst, hlook, produce, hp, he, hg, ossl_assert]⟩
        · exact ⟨[Event.export_to M f], by
            simp [evp_keymgmt_export_to_provider, hst, hlook, produce, hp, he, hg, hd,
              ossl_assert, hpk]⟩
  refine ⟨?_, hA, hB⟩
  intro r pk1 ev h
  by_cases hp : pk.pkey_ptr = 0
  · rw [hB hp] at h
    cases hbr : bridge_loop H M f pk.pkeys
        { provctx := 0, importfn := some (importfn_for f), provdata := 0 } with
    | none => simp [hbr] at h
    | some res =>
      simp only [hbr, Option.map_some', Option.some.injEq, Prod.mk.injEq] at h
      exact ⟨h.1.1.symm, h.1.2.symm⟩
  · obtain ⟨ev1, h1⟩ := hA hp
    rw [h1] at h
    simp only [Option.some.injEq, Prod.mk.injEq] at h
    exact ⟨h.1.1.symm, h.1.2.symm⟩

/-- The amended C9 at three full keys.  Without legacy representation, on a
heap where the cached manager refuses to export: both slots are tried and
`NULL` is returned.  Without legacy representation, on a heap where the bridge
loop obtains the representation 75: the assertion fails all the same and the
key is unchanged.  With a legacy representation whose watermark is current. -/
theorem capacity_guard_witness :
    (evp_keymgmt_export_to_provider heap_refusing key_full_refusing 3 0 =
        some ((0, key_full_refusing), [Event.exportkey 1 11, Event.exportkey 1 12]) ∧
     ∀ r pk1 ev, evp_keymgmt_export_to_provider heap_refusing key_full_refusing 3 0
        = some ((r, pk1), ev) → r = 0 ∧ pk1 = key_full_refusing) ∧
    (bridge_loop heap_stale_result 3 0 key_full_bridge.pkeys
        { provctx := 0, importfn := some (importfn_for 0), provdata := 0 } =
        some (75, [Event.exportkey 1 11, Event.importkey 3 [("n", 5)], Event.exportkey 2 22]) ∧
     evp_keymgmt_export_to_provider heap_stale_result key_full_bridge 3 0 =
        (bridge_loop heap_stale_result 3 0 key_full_bridge.pkeys
          { provctx := 0, importfn := some (importfn_for 0), provdata := 0 }).map
          (fun r => ((0, key_full_bridge), r.2))) ∧
    (∃ ev, evp_keymgmt_export_to_provider heap_ten key_full_current 3 0
        = some ((0, key_full_current), ev)) :=
  ⟨⟨rfl, (capacity_guard heap_refusing key_full_refusing 3 0 (by decide) (by decide)
      (by
        rintro ⟨h, _⟩
        exact h rfl)).1⟩,
   ⟨rfl, (capacity_guard heap_stale_result key_full_bridge 3 0 (by decide) (by decide)
      (by
        rintro ⟨h, _⟩
        exact h rfl)).2.2 rfl⟩,
   (capacity_guard heap_ten key_full_current 3 0 (by decide) (by decide)
      (by
        rintro ⟨_, c, hc, hne⟩
        simp only [key_full_current, key_full_stale, Option.some.injEq] at hc
        exact hne hc.symm)).2.1 (by decide)⟩

/-- C10. Slot uniqueness invariant: in every state reachable from an empty
cache by calls of `evp_keymgmt_export_to_provider`, `evp_keymgmt_fromdata` and
`evp_keymgmt_clear_pkey_cache` whose domain-parameters flag is a boolean (0 or
1), at most one live slot holds a given manager as a domain-parameter slot
(`b = true`) and at most one holds it as a key slot (`b = false`). -/
theorem slot_uniqueness (H : Heap) (pk : EVP_PKEY) (log : List Event)
    (h : ReachableBool H pk log) (m : Ptr) (b : Bool) :
    slots_of_kind pk.pkeys m b ≤ 1 := by
  have hflags : ∀ s ∈ live pk.pkeys, s.domainparams = 0 ∨ s.domainparams = 1 := by
    intro s hs
    unfold live at hs
    rw [List.mem_filter] at hs
    exact reachableBool_boolFlags H pk log h s hs.1 (by simpa using hs.2)
  rw [slots_of_kind_eq _ m b hflags]
  exact (reachable_slotsInv H pk log (reachableBool_reachable H pk log h)).2 m _

/-- C10 at the state reached by the requests (3, 1), (3, 0) and (3, 1) again:
the manager at address 3 holds one domain-parameter slot and one key slot, the
repeated request was answered from the cache. -/
theorem slot_uniqueness_witness :
    (∃ log, ReachableBool heap_two key_legacy_both log) ∧
    (slots_of_kind key_legacy_both.pkeys 3 true = 1 ∧
     slots_of_kind key_legacy_both.pkeys 3 false = 1) ∧
    ∀ b, slots_of_kind key_legacy_both.pkeys 3 b ≤ 1 := by
  have hr : ReachableBool heap_two key_legacy_both
      [Event.export_to 3 1, Event.up_ref 3, Event.get_domparam_params 3 51,
       Event.export_to 3 0, Event.up_ref 3] :=
    @ReachableBool.export_to_provider heap_two key_legacy_both
      [Event.export_to 3 1, Event.up_ref 3, Event.get_domparam_params 3 51,
       Event.export_to 3 0, Event.up_ref 3] 3 1 51 key_legacy_both []
      (@ReachableBool.export_to_provider heap_two key_legacy_flag1
        [Event.export_to 3 1, Event.up_ref 3, Event.get_domparam_params 3 51] 3 0 50
        key_legacy_both [Event.export_to 3 0, Event.up_ref 3]
        (@ReachableBool.export_to_provider heap_two key_legacy_empty [] 3 1 51
          key_legacy_flag1
          [Event.export_to 3 1, Event.up_ref 3, Event.get_domparam_params 3 51]
          (ReachableBool.init key_legacy_empty (by decide)) (Or.inr rfl) rfl)
        (Or.inl rfl) rfl)
      (Or.inr rfl) rfl
  exact ⟨⟨_, hr⟩, by decide, fun b => slot_uniqueness heap_two key_legacy_both _ hr 3 b⟩

/-- C11. Primary insertion replaces the cache: for a target whose live slots
form a run from index 0 (the invariant of the data model, which holds in every
state that calls of this file reach from an empty cache: `reachable_slotsInv`)
and can be freed, and a manager whose import, of
the kind the flag selects, yields a non-null representation `r`,
`evp_keymgmt_fromdata` returns `r`; its external calls are the import, then the
free call and reference release of every previously live slot, then a reference
taken on the manager and at most the get-params call; afterwards the only live
slot is (manager, `r`, flag), at index 0. -/
theorem fromdata_replaces_cache (H : Heap) (target : EVP_PKEY) (M : Ptr) (params : Params)
    (f : Int) (m : EVP_KEYMGMT) (g : Ptr → Params → Ptr)
    (hm : deref H M = some m) (hg : import_op m f = some g) (hr : g m.provctx params ≠ 0)
    (hc : Contiguous target.pkeys) (hf : ∀ s ∈ target.pkeys, s.keymgmt ≠ 0 → Freeable H s)
    (hlen : 0 < target.pkeys.length) :
    ∃ pk1 ev2,
      evp_keymgmt_fromdata H target M params f =
        some ((g m.provctx params, pk1),
              [import_event M params f] ++ free_calls target.pkeys ++ ev2) ∧
      live pk1.pkeys = [⟨M, g m.provctx params, f⟩] ∧
      pk1.pkeys.head? = some ⟨M, g m.provctx params, f⟩ ∧
      (∀ e ∈ ev2, e = Event.up_ref M ∨ e = Event.get_key_params M (g m.provctx params) ∨
        e = Event.get_domparam_params M (g m.provctx params)) := by
  have himp := fromdata_import H M params f m g hm hg
  have hcl := clear_loop_contiguous H target.pkeys hc hf
  have hlive : live (target.pkeys.map purge) = [] := live_map_purge _
  have hlen2 : 0 < (target.pkeys.map purge).length := by
    rw [List.length_map]
    exact hlen
  have hne : target.pkeys.map purge ≠ [] := by
    intro h0
    rw [h0] at hlen2
    exact absurd hlen2 (by simp)
  obtain ⟨pk3, ev2, hcache, hslots, hev2⟩ := cache_pkey_zero_slots H
    { target with
      pkeys := target.pkeys.map purge
      cache := { size := 0, bits := 0, security_bits := 0 } } M (g m.provctx params) f m hr hm
    hlen2
  have hl := live_set_zero_of_empty (target.pkeys.map purge) ⟨M, g m.provctx params, f⟩
    (deref_ne_zero H M m hm) hlive hne
  refine ⟨pk3, ev2, ?_, ?_, ?_, hev2⟩
  · unfold evp_keymgmt_fromdata
    rw [himp]
    simp only [evp_keymgmt_clear_pkey_cache, hcl, hcache]
  · rw [hslots]
    exact hl.1
  · rw [hslots]
    exact hl.2

/-- C11 at the reachable target `key_two_served` (a key and domain parameters
cached): both are freed and the imported key 75 becomes the only live slot. -/
theorem fromdata_replaces_cache_witness :
    (∃ log, Reachable heap_cache_two key_two_served log) ∧
    (evp_keymgmt_fromdata heap_cache_two key_two_served 3 [("n", 5)] 0).map
        (fun r => (r.1.1, r.1.2.pkeys, r.2)) =
      some (75, [⟨3, 75, 0⟩, ⟨0, 0, 1⟩, empty_slot],
            [Event.importkey 3 [("n", 5)], Event.freekey 1 11, Event.free_ref 1,
             Event.freedomparams 2 22, Event.free_ref 2, Event.up_ref 3]) ∧
    ∃ pk1 ev2,
      evp_keymgmt_fromdata heap_cache_two key_two_served 3 [("n", 5)] 0 =
        some (((70 + (param_int [("n", 5)] 0).toNat), pk1),
              [import_event 3 [("n", 5)] 0] ++ free_calls key_two_served.pkeys ++ ev2) ∧
      live pk1.pkeys = [⟨3, (70 + (param_int [("n", 5)] 0).toNat), 0⟩] ∧
      pk1.pkeys.head? = some ⟨3, (70 + (param_int [("n", 5)] 0).toNat), 0⟩ ∧
      (∀ e ∈ ev2, e = Event.up_ref 3 ∨
        e = Event.get_key_params 3 (70 + (param_int [("n", 5)] 0).toNat) ∨
        e = Event.get_domparam_params 3 (70 + (param_int [("n", 5)] 0).toNat)) := by
  have hr : Reachable heap_cache_two key_two_served
      [Event.export_to 1 0, Event.up_ref 1, Event.export_to 2 1, Event.up_ref 2] :=
    Reachable.legacy 0 { dirty_cnt := none, export_to := none }
      (@Reachable.export_to_provider heap_cache_two
        { key_fresh_two with pkeys := [⟨1, 11, 0⟩, empty_slot, empty_slot] }
        [Event.export_to 1 0, Event.up_ref 1] 2 1 22
        { key_fresh_two with pkeys := [⟨1, 11, 0⟩, ⟨2, 22, 1⟩, empty_slot] }
        [Event.export_to 2 1, Event.up_ref 2]
        (@Reachable.export_to_provider heap_cache_two key_fresh_two [] 1 0 11
          { key_fresh_two with pkeys := [⟨1, 11, 0⟩, empty_slot, empty_slot] }
          [Event.export_to 1 0, Event.up_ref 1]
          (Reachable.init key_fresh_two (by decide)) rfl) rfl)
  exact ⟨⟨_, hr⟩, by decide,
    fromdata_replaces_cache heap_cache_two key_two_served 3 [("n", 5)] 0 (mgr_importer 300)
      (fun _ params => 70 + (param_int params 0).toNat) rfl rfl (by decide)
      (reachable_slotsInv heap_cache_two key_two_served _ hr).1
      (by
        intro s hs hne
        simp only [key_two_served, empty_slot, List.mem_cons] at hs
        rcases hs with rfl | rfl | rfl | hs
        · exact ⟨_, rfl, rfl⟩
        · exact ⟨_, rfl, rfl⟩
        · exact absurd rfl hne
        · simp at hs)
      (by decide)⟩

/-- C12. Watermark only on success: on the direct path (legacy representation
with an exposed counter, request not answered from the cache) the call returns
(provided the live slots can be freed and, if the export succeeds, the
requested manager is a descriptor); if the legacy export yields a non-null
representation then afterwards `dirty_cnt_copy` equals the counter's current
value, and if it yields `NULL` then the call returns `NULL` and
`dirty_cnt_copy` is what it was. -/
theorem watermark_only_on_success (H : Heap) (pk : EVP_PKEY) (M : Ptr) (f : Int) (cnt : Nat)
    (hleg : pk.pkey_ptr ≠ 0) (hcnt : pk.ameth.dirty_cnt = some cnt)
    (hmiss : cache_miss pk M f) (hf : ∀ s ∈ pk.pkeys, s.keymgmt ≠ 0 → Freeable H s)
    (hM : legacy_export pk M f ≠ 0 → (deref H M).isSome = true) :
    ∃ r pk1 ev, evp_keymgmt_export_to_provider H pk M f = some ((r, pk1), ev) ∧
      pk1.ameth.dirty_cnt = some cnt ∧
      (legacy_export pk M f ≠ 0 → pk1.dirty_cnt_copy = cnt) ∧
      (legacy_export pk M f = 0 → r = 0 ∧ pk1.dirty_cnt_copy = pk.dirty_cnt_copy) := by
  obtain ⟨pka, ev0, i, hinv, hlook, hptr, hameth, hcopy⟩ :=
    invalidate_stale_miss H pk M f cnt hleg hcnt hmiss hf
  have hlega : pka.pkey_ptr ≠ 0 := by rw [hptr]; exact hleg
  have hcnta : pka.ameth.dirty_cnt = some cnt := by rw [hameth]; exact hcnt
  cases he : pk.ameth.export_to with
  | none =>
    have hea : pka.ameth.export_to = none := by rw [hameth]; exact he
    refine ⟨0, pka, ev0, ?_, hcnta, ?_, ?_⟩
    · simp [evp_keymgmt_export_to_provider, hinv, hlook, produce, hlega, hea]
    · intro h
      simp [legacy_export, he] at h
    · intro _
      exact ⟨rfl, hcopy⟩
  | some g =>
    have hea : pka.ameth.export_to = some g := by rw [hameth]; exact he
    have hle : legacy_export pk M f = g M f := by simp [legacy_export, he]
    rw [hle] at hM ⊢
    by_cases hg : g M f = 0
    · refine ⟨0, pka, ev0 ++ [Event.export_to M f], ?_, hcnta, fun h => absurd hg h,
        fun _ => ⟨rfl, hcopy⟩⟩
      by_cases hi : i < pka.pkeys.length
      · simp [evp_keymgmt_export_to_provider, hinv, hlook, produce, hlega, hea, hg, ossl_assert,
          hi, evp_keymgmt_cache_pkey]
      · simp [evp_keymgmt_export_to_provider, hinv, hlook, produce, hlega, hea, hg, ossl_assert,
          hi]
    · by_cases hi : i < pka.pkeys.length
      · obtain ⟨m, hm⟩ := Option.isSome_iff_exists.1 (hM hg)
        obtain ⟨pk3, ev2, hcache⟩ := cache_pkey_total H { pka with dirty_cnt_copy := cnt } i M
          (g M f) f m hg hm hi
        refine ⟨g M f, pk3, ev0 ++ [Event.export_to M f] ++ ev2, ?_, ?_, ?_,
          fun h => absurd h hg⟩
        · simp only [evp_keymgmt_export_to_provider, hinv, hlook, produce, hlega, hea, hg, hcnta,
            ossl_assert, ne_eq, not_false_eq_true, if_true]
          simp only at hi
          simp only [hi, decide_True, Bool.not_true, Bool.false_eq_true, if_false, hcache]
        · rcases cache_pkey_cases H _ i M (g M f) f pk3 ev2 hcache with
            ⟨h0, _⟩ | ⟨_, _, _, _, _, ha, _, _⟩
          · exact absurd h0 hg
          · rw [ha]
            exact hcnta
        · intro _
          rcases cache_pkey_cases H _ i M (g M f) f pk3 ev2 hcache with
            ⟨h0, _⟩ | ⟨_, _, _, _, _, _, hc3, _⟩
          · exact absurd h0 hg
          · rw [hc3]
      · refine ⟨0, { pka with dirty_cnt_copy := cnt }, ev0 ++ [Event.export_to M f], ?_, hcnta,
          fun _ => rfl, fun h => absurd h hg⟩
        simp [evp_keymgmt_export_to_provider, hinv, hlook, produce, hlega, hea, hg, hcnta,
          ossl_assert, hi]

/-- C12 at a stale key whose legacy export succeeds (the watermark moves from 0
to the counter 1) and at one whose legacy export fails (it stays 0). -/
theorem watermark_only_on_success_witness :
    (evp_keymgmt_export_to_provider heap_legacy key_stale_exporting 3 0).map
        (fun r => (r.1.1, r.1.2.dirty_cnt_copy)) = some (77, 1) ∧
    (evp_keymgmt_export_to_provider heap_legacy key_stale_failing 3 0).map
        (fun r => (r.1.1, r.1.2.dirty_cnt_copy)) = some (0, 0) ∧
    ∃ r pk1 ev, evp_keymgmt_export_to_provider heap_legacy key_stale_exporting 3 0
        = some ((r, pk1), ev) ∧
      pk1.ameth.dirty_cnt = some 1 ∧
      (legacy_export key_stale_exporting 3 0 ≠ 0 → pk1.dirty_cnt_copy = 1) ∧
      (legacy_export key_stale_exporting 3 0 = 0 →
        r = 0 ∧ pk1.dirty_cnt_copy = key_stale_exporting.dirty_cnt_copy) :=
  ⟨by decide, by decide,
   watermark_only_on_success heap_legacy key_stale_exporting 3 0 1 (by decide) rfl
    (Or.inl ⟨by decide, 1, rfl, by decide⟩)
    (by
      intro s hs hne
      simp only [key_stale_exporting, empty_slot, List.mem_cons] at hs
      rcases hs with rfl | rfl | hs
      · exact ⟨_, rfl, rfl⟩
      · exact absurd rfl hne
      · simp at hs)
    (fun _ => rfl)⟩

/-- C13 fails on the code. The requested manager (address 3) has no import
operation.  The test of line 103 compares the address of a forwarder with
`NULL`, so the bridge loop starts all the same: with a cached slot whose export
never calls the sink, that export is invoked before the call returns `NULL`;
with one whose export calls the sink, the call has no defined result (a call
through the `NULL` import pointer); and when another importing descriptor lies
at the address of the manager's provider context, the call returns a
representation (99) and caches it for the manager that cannot import. -/
theorem export_invoked_without_import_capability :
    (mgr_no_import 3).importkey.isSome = false ∧
    evp_keymgmt_export_to_provider heap_no_import key_one_silent 3 0
      = some ((0, key_one_silent), [Event.exportkey 1 11]) ∧
    (evp_keymgmt_export_to_provider heap_no_import key_one_exporter 3 0).isSome = false ∧
    (evp_keymgmt_export_to_provider heap_no_import_aliased key_one_exporter 3 0).map
        (fun r => (r.1.1, r.1.2.pkeys, r.2))
      = some (99, [⟨2, 22, 0⟩, ⟨3, 99, 0⟩],
              [Event.exportkey 2 22, Event.importkey 300 [("n", 5)], Event.up_ref 3]) :=
  ⟨rfl, rfl, by decide, by decide⟩

/-- C14. No change tracking, no resolution: for a key that has a legacy
representation whose backend exposes no mutation counter, the call returns
`NULL` for every manager and flag, makes no external call and leaves the key
(slots, summary and `dirty_cnt_copy`) as it was. -/
theorem untracked_legacy_never_resolves (H : Heap) (pk : EVP_PKEY) (M : Ptr) (f : Int)
    (hleg : pk.pkey_ptr ≠ 0) (hcnt : pk.ameth.dirty_cnt = none) :
    evp_keymgmt_export_to_provider H pk M f = some ((0, pk), []) := by
  simp [evp_keymgmt_export_to_provider, invalidate_stale, hleg, hcnt]

/-- C14 at a key whose slot 0 matches the request: the cached representation 11
is not returned. -/
theorem untracked_legacy_never_resolves_witness :
    lookup_loop 1 0 key_untracked.pkeys 0 = Lookup.hit 11 ∧
    evp_keymgmt_export_to_provider heap_two key_untracked 1 0 = some ((0, key_untracked), []) :=
  ⟨by decide, untracked_legacy_never_resolves heap_two key_untracked 1 0 (by decide) rfl⟩

/-- C15. Reference balance: in every state reachable from an empty cache by
calls of `evp_keymgmt_export_to_provider`, `evp_keymgmt_fromdata` and
`evp_keymgmt_clear_pkey_cache`, for each manager the references taken
(`up_ref`) exceed the references released (`free_ref`) by exactly the number of
live slots naming that manager; and a clear from such a state takes no
reference, releases exactly one per live slot naming the manager, and leaves
no live slot, so that taken and released references are then equal. -/
theorem reference_balance (H : Heap) (pk : EVP_PKEY) (log : List Event)
    (h : Reachable H pk log) (m : Ptr) :
    log.count (Event.up_ref m) = log.count (Event.free_ref m) + held pk.pkeys m ∧
    (∀ pk1 ev, evp_keymgmt_clear_pkey_cache H (some pk) = some (some pk1, ev) →
      ev.count (Event.up_ref m) = 0 ∧ ev.count (Event.free_ref m) = held pk.pkeys m ∧
      held pk1.pkeys m = 0 ∧
      (log ++ ev).count (Event.up_ref m) = (log ++ ev).count (Event.free_ref m)) := by
  have hb := reachable_balance H pk log h m
  refine ⟨hb, ?_⟩
  intro pk1 ev hcall
  obtain ⟨h1, h2, h3⟩ := clear_balance H pk pk1 ev (reachable_slotsInv H pk log h).1 hcall m
  refine ⟨h1, h2, h3, ?_⟩
  simp only [List.count_append]
  omega

/-- C15 at the state reached from an empty cache by two requests for manager 3:
two references taken, none released, two live slots. -/
theorem reference_balance_witness :
    ([Event.export_to 3 1, Event.up_ref 3, Event.get_domparam_params 3 51,
      Event.export_to 3 2, Event.up_ref 3] : List Event).count (Event.up_ref 3) = 2 ∧
    held key_legacy_flag2.pkeys 3 = 2 ∧
    (([] ++ [Event.export_to 3 1, Event.up_ref 3, Event.get_domparam_params 3 51]) ++
        [Event.export_to 3 2, Event.up_ref 3] : List Event).count (Event.up_ref 3) =
      (([] ++ [Event.export_to 3 1, Event.up_ref 3, Event.get_domparam_params 3 51]) ++
        [Event.export_to 3 2, Event.up_ref 3] : List Event).count (Event.free_ref 3) +
      held key_legacy_flag2.pkeys 3 :=
  ⟨by decide, by decide,
   (reference_balance heap_two key_legacy_flag2 _
    (Reachable.export_to_provider 3 2 52 key_legacy_flag2
      [Event.export_to 3 2, Event.up_ref 3]
      (Reachable.export_to_provider 3 1 51 key_legacy_flag1
        [Event.export_to 3 1, Event.up_ref 3, Event.get_domparam_params 3 51]
        (Reachable.init key_legacy_empty (by decide)) rfl) rfl) 3).1⟩

/-- C16. Absent-capability defaults: through a valid descriptor, the get-params
forwarders and the domain-parameter validation return 1 without a backend call
and with the parameter array untouched when the operation is not implemented,
and otherwise make one backend call and return exactly its result (for
get-params: with what the backend stored applied to the array); the gettable
forwarders return `NULL` without a backend call when the operation is not
implemented. -/
theorem absent_capability_defaults (H : Heap) (keymgmt : Ptr) (m : EVP_KEYMGMT)
    (hm : deref H keymgmt = some m) (provdata : Ptr) (params : Params) :
    (m.get_key_params = none →
      evp_keymgmt_get_key_params H keymgmt provdata params = some ((1, params), [])) ∧
    (∀ g, m.get_key_params = some g →
      evp_keymgmt_get_key_params H keymgmt provdata params =
        some (((g provdata params).1, store_params params (g provdata params).2),
              [Event.get_key_params keymgmt provdata])) ∧
    (m.get_domparam_params = none →
      evp_keymgmt_get_domparam_params H keymgmt provdata params = some ((1, params), [])) ∧
    (∀ g, m.get_domparam_params = some g →
      evp_keymgmt_get_domparam_params H keymgmt provdata params =
        some (((g provdata params).1, store_params params (g provdata params).2),
              [Event.get_domparam_params keymgmt provdata])) ∧
    (m.validatedomparams = none →
      evp_keymgmt_validate_domparams H keymgmt provdata = some (1, [])) ∧
    (∀ g, m.validatedomparams = some g →
      evp_keymgmt_validate_domparams H keymgmt provdata =
        some (g provdata, [Event.validatedomparams keymgmt provdata])) ∧
    (m.gettable_key_params = none →
      evp_keymgmt_gettable_key_params H keymgmt = some (none, [])) ∧
    (m.gettable_domparam_params = none →
      evp_keymgmt_gettable_domparam_params H keymgmt = some (none, [])) := by
  refine ⟨?_, ?_, ?_, ?_, ?_, ?_, ?_, ?_⟩
  · intro h
    simp [evp_keymgmt_get_key_params, hm, h]
  · intro g h
    simp [evp_keymgmt_get_key_params, hm, h]
  · intro h
    simp [evp_keymgmt_get_domparam_params, hm, h]
  · intro g h
    simp [evp_keymgmt_get_domparam_params, hm, h]
  · intro h
    simp [evp_keymgmt_validate_domparams, hm, h]
  · intro g h
    simp [evp_keymgmt_validate_domparams, hm, h]
  · intro h
    simp [evp_keymgmt_gettable_key_params, hm, h]
  · intro h
    simp [evp_keymgmt_gettable_domparam_params, hm, h]

/-- C16 at a descriptor without any operation (address 1 of `heap_legacy` has
only a free operation) and at `mgr_reporting`, whose domain-parameter
get-params fails and whose key get-params succeeds. -/
theorem absent_capability_defaults_witness :
    evp_keymgmt_get_key_params heap_legacy 1 11 [("bits", 9)] = some ((1, [("bits", 9)]), []) ∧
    evp_keymgmt_get_domparam_params heap_legacy 1 11 [("bits", 9)]
      = some ((1, [("bits", 9)]), []) ∧
    evp_keymgmt_validate_domparams heap_legacy 1 11 = some (1, []) ∧
    evp_keymgmt_gettable_key_params heap_legacy 1 = some (none, []) ∧
    evp_keymgmt_gettable_domparam_params heap_legacy 1 = some (none, []) ∧
    evp_keymgmt_get_key_params heap_two 3 33 [("bits", 9), ("other", 4)]
      = some ((1, [("bits", 256), ("other", 4)]), [Event.get_key_params 3 33]) ∧
    evp_keymgmt_get_domparam_params heap_two 3 33 [("bits", 9)]
      = some ((0, [("bits", 7)]), [Event.get_domparam_params 3 33]) :=
  have h := absent_capability_defaults heap_legacy 1
    { no_ops with provctx := 100, freekey := some (fun _ => ()) } rfl 11 [("bits", 9)]
  ⟨h.1 rfl, h.2.2.1 rfl, h.2.2.2.2.1 rfl, h.2.2.2.2.2.2.1 rfl, h.2.2.2.2.2.2.2 rfl,
   by decide, by decide⟩

/-- C17. Clear is idempotent: whenever `evp_keymgmt_clear_pkey_cache` returns,
applying it again returns the key it already left and makes no external call;
on a key without live slot it makes no free call and no reference release and
only zeroes the summary; a `NULL` key is accepted and nothing happens; and the
call returns whenever every live slot can be freed. -/
theorem clear_idempotent (H : Heap) :
    (∀ pk pk1 ev, evp_keymgmt_clear_pkey_cache H (some pk) = some (some pk1, ev) →
      evp_keymgmt_clear_pkey_cache H (some pk1) = some (some pk1, [])) ∧
    (∀ pk, live pk.pkeys = [] →
      evp_keymgmt_clear_pkey_cache H (some pk) =
        some (some { pk with cache := { size := 0, bits := 0, security_bits := 0 } }, [])) ∧
    evp_keymgmt_clear_pkey_cache H none = some (none, []) ∧
    (∀ pk, (∀ s ∈ pk.pkeys, s.keymgmt ≠ 0 → Freeable H s) →
      ∃ pk1 ev, evp_keymgmt_clear_pkey_cache H (some pk) = some (some pk1, ev)) := by
  refine ⟨?_, ?_, rfl, ?_⟩
  · intro pk pk1 ev h
    unfold evp_keymgmt_clear_pkey_cache at h
    cases hl : clear_loop H pk.pkeys with
    | none => simp [hl] at h
    | some res =>
      obtain ⟨slots, ev1⟩ := res
      simp only [hl, Option.some.injEq, Prod.mk.injEq] at h
      obtain ⟨rfl, _⟩ := h
      have h2 := clear_loop_head_empty H slots (clear_loop_head H pk.pkeys slots ev1 hl).2
      simp [evp_keymgmt_clear_pkey_cache, h2]
  · intro pk hl
    simp [evp_keymgmt_clear_pkey_cache, clear_loop_of_empty H pk.pkeys hl]
  · intro pk hf
    obtain ⟨l1, ev, h⟩ := clear_loop_total H pk.pkeys hf
    simp [evp_keymgmt_clear_pkey_cache, h]

/-- C17 at `key_two`: the first clear frees both representations, the second
one does nothing, and so does a clear of the `NULL` key. -/
theorem clear_idempotent_witness :
    (evp_keymgmt_clear_pkey_cache heap_two (some key_two)).map (fun r => (r.1.map (·.pkeys), r.2))
      = some (some [⟨0, 0, 0⟩, ⟨0, 0, 1⟩, empty_slot],
              [Event.freekey 1 11, Event.free_ref 1, Event.freedomparams 2 22,
               Event.free_ref 2]) ∧
    evp_keymgmt_clear_pkey_cache heap_two
        (some { key_two with
                pkeys := [⟨0, 0, 0⟩, ⟨0, 0, 1⟩, empty_slot]
                cache := { size := 0, bits := 0, security_bits := 0 } })
      = some (some { key_two with
                     pkeys := [⟨0, 0, 0⟩, ⟨0, 0, 1⟩, empty_slot]
                     cache := { size := 0, bits := 0, security_bits := 0 } }, []) ∧
    evp_keymgmt_clear_pkey_cache heap_two none = some (none, []) :=
  ⟨by decide,
   (clear_idempotent heap_two).1 key_two _
     [Event.freekey 1 11, Event.free_ref 1, Event.freedomparams 2 22, Event.free_ref 2] rfl,
   (clear_idempotent heap_two).2.2.1⟩

/-- C18. Slot well-formedness: in every state reachable from an empty cache by
calls of `evp_keymgmt_export_to_provider`, `evp_keymgmt_fromdata` and
`evp_keymgmt_clear_pkey_cache`, no live slot follows an empty one, and a slot
holds a non-null representation exactly when it holds a non-null manager. -/
theorem slots_well_formed (H : Heap) (pk : EVP_PKEY) (log : List Event)
    (h : Reachable H pk log) :
    Contiguous pk.pkeys ∧
    (∀ (i j : Nat) (s t : Slot), i < j → pk.pkeys[i]? = some s → pk.pkeys[j]? = some t →
      s.keymgmt = 0 → t.keymgmt = 0) ∧
    (∀ s ∈ pk.pkeys, (s.provdata ≠ 0 ↔ s.keymgmt ≠ 0)) := by
  have hc := (reachable_slotsInv H pk log h).1
  refine ⟨hc, ?_, reachable_paired H pk log h⟩
  intro i j s t hij hi hj hs
  have hd := contiguous_drop pk.pkeys hc i (fun u hu => by
    rw [hi] at hu
    cases hu
    exact hs)
  have hmem : t ∈ pk.pkeys.drop i := by
    apply List.getElem?_mem (n := j - i)
    rw [List.getElem?_drop]
    have : i + (j - i) = j := by omega
    rw [this]
    exact hj
  exact (live_nil_iff _).1 hd t hmem

/-- C18 at the state reached from an empty cache by two requests. -/
theorem slots_well_formed_witness :
    Contiguous key_legacy_flag2.pkeys ∧
    (∀ (i j : Nat) (s t : Slot), i < j → key_legacy_flag2.pkeys[i]? = some s →
      key_legacy_flag2.pkeys[j]? = some t → s.keymgmt = 0 → t.keymgmt = 0) ∧
    (∀ s ∈ key_legacy_flag2.pkeys, (s.provdata ≠ 0 ↔ s.keymgmt ≠ 0)) :=
  slots_well_formed heap_two key_legacy_flag2 _
    (Reachable.export_to_provider 3 2 52 key_legacy_flag2
      [Event.export_to 3 2, Event.up_ref 3]
      (Reachable.export_to_provider 3 1 51 key_legacy_flag1
        [Event.export_to 3 1, Event.up_ref 3, Event.get_domparam_params 3 51]
        (Reachable.init key_legacy_empty (by decide)) rfl) rfl)

/-- C19. Primary insertion is not atomic on failure: for a target whose live
slots form a run from index 0 (the invariant of the data model, which holds in
every state that calls of this file reach from an empty cache:
`reachable_slotsInv`) and can be freed, and a manager whose import, of the kind the flag selects, yields `NULL`, `evp_keymgmt_fromdata`
returns `NULL` and nevertheless leaves the target without live slot and with a
zero summary, having issued the free call and reference release of every
previously live slot. -/
theorem fromdata_failure_clears (H : Heap) (target : EVP_PKEY) (M : Ptr) (params : Params)
    (f : Int) (m : EVP_KEYMGMT) (g : Ptr → Params → Ptr)
    (hm : deref H M = some m) (hg : import_op m f = some g) (hr : g m.provctx params = 0)
    (hc : Contiguous target.pkeys) (hf : ∀ s ∈ target.pkeys, s.keymgmt ≠ 0 → Freeable H s) :
    ∃ pk1,
      evp_keymgmt_fromdata H target M params f =
        some ((0, pk1), [import_event M params f] ++ free_calls target.pkeys) ∧
      live pk1.pkeys = [] ∧ pk1.pkeys.length = target.pkeys.length ∧
      pk1.cache = { size := 0, bits := 0, security_bits := 0 } := by
  have himp := fromdata_import H M params f m g hm hg
  have hcl := clear_loop_contiguous H target.pkeys hc hf
  refine ⟨{ target with
            pkeys := target.pkeys.map purge
            cache := { size := 0, bits := 0, security_bits := 0 } }, ?_, live_map_purge _,
    by simp, rfl⟩
  unfold evp_keymgmt_fromdata
  rw [himp, hr]
  simp [evp_keymgmt_clear_pkey_cache, hcl, evp_keymgmt_cache_pkey]

/-- C19 at the reachable target `key_two_served`: the rejected import costs the
target both cached representations (and its summary is zero). -/
theorem fromdata_failure_clears_witness :
    (∃ log, Reachable heap_rejecting_two key_two_served log) ∧
    (evp_keymgmt_fromdata heap_rejecting_two key_two_served 3 [("n", 5)] 0).map
        (fun r => (r.1.1, r.1.2.pkeys, r.1.2.cache, r.2)) =
      some (0, [⟨0, 0, 0⟩, ⟨0, 0, 1⟩, empty_slot], { size := 0, bits := 0, security_bits := 0 },
            [Event.importkey 3 [("n", 5)], Event.freekey 1 11, Event.free_ref 1,
             Event.freedomparams 2 22, Event.free_ref 2]) ∧
    ∃ pk1,
      evp_keymgmt_fromdata heap_rejecting_two key_two_served 3 [("n", 5)] 0 =
        some ((0, pk1), [import_event 3 [("n", 5)] 0] ++ free_calls key_two_served.pkeys) ∧
      live pk1.pkeys = [] ∧ pk1.pkeys.length = key_two_served.pkeys.length ∧
      pk1.cache = { size := 0, bits := 0, security_bits := 0 } := by
  have hr : Reachable heap_rejecting_two key_two_served
      [Event.export_to 1 0, Event.up_ref 1, Event.export_to 2 1, Event.up_ref 2] :=
    Reachable.legacy 0 { dirty_cnt := none, export_to := none }
      (@Reachable.export_to_provider heap_rejecting_two
        { key_fresh_two with pkeys := [⟨1, 11, 0⟩, empty_slot, empty_slot] }
        [Event.export_to 1 0, Event.up_ref 1] 2 1 22
        { key_fresh_two with pkeys := [⟨1, 11, 0⟩, ⟨2, 22, 1⟩, empty_slot] }
        [Event.export_to 2 1, Event.up_ref 2]
        (@Reachable.export_to_provider heap_rejecting_two key_fresh_two [] 1 0 11
          { key_fresh_two with pkeys := [⟨1, 11, 0⟩, empty_slot, empty_slot] }
          [Event.export_to 1 0, Event.up_ref 1]
          (Reachable.init key_fresh_two (by decide)) rfl) rfl)
  exact ⟨⟨_, hr⟩, by decide,
    fromdata_failure_clears heap_rejecting_two key_two_served 3 [("n", 5)] 0
      mgr_rejecting_importer (fun _ _ => 0) rfl rfl rfl
      (reachable_slotsInv heap_rejecting_two key_two_served _ hr).1
      (by
        intro s hs hne
        simp only [key_two_served, empty_slot, List.mem_cons] at hs
        rcases hs with rfl | rfl | rfl | hs
        · exact ⟨_, rfl, rfl⟩
        · exact ⟨_, rfl, rfl⟩
        · exact absurd rfl hne
        · simp at hs)⟩

end Keymgmt
